import Mathlib

/-!
# TypePack: a shallow embedding of `include/type_pack.hpp`

A `type_pack<Ts...>` is embedded as a `List α` of type tokens, where `α` is any
type with decidable equality (`std::is_same` / matching a repeated template
parameter).  A metafunction that always provides its member (`type` / `value`)
becomes a total function; one whose member may be missing (no matching
specialisation with the member, an incomplete type, a failed `static_assert`)
returns an `Option`.  Comparison metafunctions `Less<A, B>::value` are
`α → α → Bool`, unary predicates `Pred<T>::value` are `α → Bool`.
-/

namespace tp

/-- An operand of `concatenate` (and of `is_equal`): a `type_pack<Ts...>`, a
`just_type<T>`, or any other type, which matches neither. -/
inductive Operand (α : Type) where
  | pack (ts : List α) : Operand α
  | just (t : α) : Operand α
  | bare (t : α) : Operand α
  deriving DecidableEq, Repr

/-- The alias `empty_pack`, that is `type_pack<>`. -/
def empty_pack {α : Type} : List α := []

/-- The member `size()` of `type_pack<Types...>`: `sizeof...(Types)`. -/
def size {α : Type} (tp : List α) : Nat := tp.length

/-- The four two-operand specialisations of `concatenate`.  Any other pair of
operands only matches `concatenate<T, Ts...>`, which asks for
`concatenate<U>::type`, hence for `concatenate<>::type`, and the primary
template has no member `type`. -/
def concatenate2 {α : Type} : Operand α → Operand α → Option (List α)
  | .pack ts, .pack us => some (ts ++ us)
  | .pack ts, .just t => some (ts ++ [t])
  | .just t, .pack ts => some (t :: ts)
  | .just a, .just b => some [a, b]
  | _, _ => none

/-- The metafunction `concatenate<class...>`: the primary template has no member
`type`; two operands go to the two-operand specialisations; otherwise
`concatenate<T, Ts...>` derives from
`concatenate<T, typename concatenate<Ts...>::type>`. -/
def concatenate {α : Type} : List (Operand α) → Option (List α)
  | [] => none
  | [_] => none
  | [a, b] => concatenate2 a b
  | T :: Ts => (concatenate Ts).bind (fun r => concatenate2 T (.pack r))

/-- The metafunction `at_helper<Idx, Count, TP, void>`: the primary template asks for
the member of the undefined `Error_Type_Pack_Out_Of_Range`. -/
def at_helper {α : Type} (Idx : Nat) : Nat → List α → Option α
  | _, [] => none
  | Count, T :: Ts => if Idx = Count then some T else at_helper Idx (Count + 1) Ts

/-- The alias `at_t<Idx, TP>`, that is `at_helper<Idx, 0, TP, void>::type`. -/
def at_t {α : Type} (Idx : Nat) (TP : List α) : Option α := at_helper Idx 0 TP

/-- The metafunction `copy_if<TP, Pred>`. -/
def copy_if {α : Type} (Pred : α → Bool) : List α → List α
  | [] => []
  | T :: Ts => (if Pred T then [T] else []) ++ copy_if Pred Ts

/-- The metafunction `remove<T, TP>`: deletes the first `T`. -/
def remove {α : Type} [DecidableEq α] (T : α) : List α → List α
  | [] => []
  | U :: Ts => if T = U then Ts else U :: remove T Ts

/-- The metafunction `sort<TP, Less>`.  The inductive case recurses on packs that
are not subterms of its argument (and `pack_lt` is filtered from the whole pack,
pivot included), so the embedding carries an instantiation budget: `none` stands
for a pack whose `sort<...>::type` the compiler cannot complete within it. -/
def sort {α : Type} [DecidableEq α] (Less : α → α → Bool) : Nat → List α → Option (List α)
  | 0, _ => none
  | _ + 1, [] => some []
  | _ + 1, [T] => some [T]
  | fuel + 1, T :: U :: Us =>
    let tp_t := T :: U :: Us
    (at_t 0 tp_t).bind fun pivot =>
      let pack := remove pivot tp_t
      let pack_lt := copy_if (fun E => Less E pivot) tp_t
      let pack_gt := copy_if (fun E => !Less E pivot) pack
      (sort Less fuel pack_lt).bind fun inductive_sort_lt =>
        (sort Less fuel pack_gt).bind fun inductive_sort_gte =>
          concatenate [.pack inductive_sort_lt, .just pivot, .pack inductive_sort_gte]

/-- The metafunction `is_sorted_impl<TP, Less>`: the case `type_pack<T1, T2, Ts...>`
selects between `is_sorted_impl<type_pack<Ts...>, Less>` and `false`. -/
def is_sorted_impl {α : Type} (Less : α → α → Bool) : List α → Bool
  | [] => true
  | [_] => true
  | T1 :: T2 :: Ts => if !Less T2 T1 then is_sorted_impl Less Ts else false

/-- The metafunction `is_sorted<TP, Less>`. -/
def is_sorted {α : Type} (Less : α → α → Bool) (TP : List α) : Bool :=
  is_sorted_impl Less TP

/-- The metafunction `remove_all<T, TP>`. -/
def remove_all {α : Type} [DecidableEq α] (T : α) : List α → List α
  | [] => []
  | U :: Ts => if T = U then remove_all T Ts else U :: remove_all T Ts

/-- The metafunction `unique<TP>`: the head, then `unique` of the rest without the
head (`remove_all_t<T, type_pack<Ts...>>`). -/
def unique {α : Type} [DecidableEq α] : List α → List α
  | [] => []
  | T :: Ts => T :: unique (remove_all T Ts)
termination_by l => l.length
decreasing_by
  have hle : ∀ l : List α, (remove_all T l).length ≤ l.length := by
    intro l
    induction l with
    | nil => simp [remove_all]
    | cons U Us ih =>
      simp only [remove_all]
      split
      · exact Nat.le_succ_of_le ih
      · simpa using ih
  have := hle Ts
  simp only [List.length_cons]
  omega

/-- The metafunction `push_front<T, TP>`. -/
def push_front {α : Type} (T : α) (TP : List α) : List α := T :: TP

/-- The metafunction `pop_front<TP>`: the primary template gives `empty_pack` for
`empty_pack`, the specialisation drops the head. -/
def pop_front {α : Type} : List α → List α
  | [] => []
  | _ :: Ts => Ts

/-- The metafunction `push_back<T, TP>`. -/
def push_back {α : Type} (T : α) (TP : List α) : List α := TP ++ [T]

/-- The metafunction `pop_back<TP>`: the primary template is declared and never
defined; `type_pack<T>` gives `empty_pack`; `type_pack<T, U, Ts...>` concatenates
`type_pack<T, U>` with `pop_back<type_pack<Ts...>>::type`. -/
def pop_back {α : Type} : List α → Option (List α)
  | [] => none
  | [_] => some []
  | T :: U :: Ts => (pop_back Ts).bind fun r => concatenate [.pack [T, U], .pack r]

/-- The `static_assert(begin <= end)` of `__details::indexes<Begin, End, Current>`. -/
def indexes_ok (Begin End : Nat) : Bool := decide (Begin ≤ End)

/-- The metafunction `__details::copy_impl<indexes<Begin, End, Current>, TP, void>`.
Naming `Indexes::current` instantiates `indexes`, so its `static_assert` is checked
first.  The second specialisation names `recursive_copy` whether or not
`store_tail` holds.  `Current` only grows while the pack is non-empty and
`End - Current` is only formed when `Current < End`, so `std::size_t` never wraps. -/
def copy_impl {α : Type} (Begin End : Nat) : Nat → List α → Option (List α)
  | Current, [] =>
    if !indexes_ok Begin End then none
    else if Current = End then some []
    else none
  | Current, T :: Ts =>
    if !indexes_ok Begin End then none
    else if Current < Begin then copy_impl Begin End (Current + 1) Ts
    else if Current < End then
      let store_tail : Bool := decide (End - Current = size (T :: Ts))
      (copy_impl Begin End (Current + 1) Ts).bind fun recursive_copy =>
        let just_tail := Ts
        let tail_t := if store_tail then just_tail else recursive_copy
        concatenate [.just T, .pack tail_t]
    else if Current = End then some []
    else none

/-- The metafunction `copy<TP, StartIdx, EndIdx>`. -/
def copy {α : Type} (TP : List α) (StartIdx EndIdx : Nat) : Option (List α) :=
  copy_impl StartIdx EndIdx 0 TP

/-- The tokens an operand of `concatenate` contributes: those of a pack in order,
the one token of a `just_type`. -/
def Operand.elems {α : Type} : Operand α → List α
  | .pack ts => ts
  | .just t => [t]
  | .bare _ => []

/-- An operand is a `type_pack` or a `just_type`. -/
def Operand.wrapped {α : Type} : Operand α → Bool
  | .pack _ => true
  | .just _ => true
  | .bare _ => false

/-- The tokens of a list of operands, operand by operand. -/
def elements {α : Type} : List (Operand α) → List α
  | [] => []
  | o :: os => o.elems ++ elements os

/-- A comparison metafunction is a strict weak order: irreflexive, transitive, and
with a transitive incomparability relation. -/
structure StrictWeakOrder {α : Type} (Less : α → α → Bool) : Prop where
  irrefl : ∀ a, Less a a = false
  trans : ∀ a b c, Less a b = true → Less b c = true → Less a c = true
  incomp_trans : ∀ a b c, Less a b = false → Less b a = false →
    Less b c = false → Less c b = false → Less a c = false ∧ Less c a = false

/-- The comparison by the order of the natural numbers, used on concrete packs. -/
def natLess (a b : Nat) : Bool := decide (a < b)

/-- The comparison by the reversed order of the natural numbers (the shape of
`sizeof_more`), used on concrete packs. -/
def natMore (a b : Nat) : Bool := decide (a > b)

/-- The predicate of the even natural numbers, used on concrete packs. -/
def isEven (n : Nat) : Bool := decide (n % 2 = 0)

/-- The metafunction `__details::find_helper<T, TP, Idx>`: `Idx` on the empty pack
and on a pack that starts with `T`, otherwise the value for the tail and
`Idx + 1`. -/
def find_helper {α : Type} [DecidableEq α] (T : α) : List α → Nat → Nat
  | [], Idx => Idx
  | U :: Ts, Idx => if T = U then Idx else find_helper T Ts (Idx + 1)

/-- The metafunction `find<T, TP, From>` (`From` defaults to `0`): `find_helper` on
`copy_t<TP, From, TP::size()>`, counting from `From`. -/
def find {α : Type} [DecidableEq α] (T : α) (TP : List α) (From : Nat) : Option Nat :=
  (copy TP From (size TP)).bind fun tp => some (find_helper T tp From)

/-- The metafunction `__details::find_if_helper<F, TP, Idx, void>`. -/
def find_if_helper {α : Type} (F : α → Bool) : List α → Nat → Nat
  | [], Idx => Idx
  | T :: Ts, Idx => if F T then Idx else find_if_helper F Ts (Idx + 1)

/-- The metafunction `find_if<F, TP, From>` (`From` defaults to `0`). -/
def find_if {α : Type} (F : α → Bool) (TP : List α) (From : Nat) : Option Nat :=
  (copy TP From (size TP)).bind fun tp => some (find_if_helper F tp From)

/-- The metafunction `contains<T, TP>`. -/
def contains {α : Type} [DecidableEq α] (T : α) : List α → Bool
  | [] => false
  | U :: Ts => if T = U then true else contains T Ts

/-- The metafunction `remove_if<F, TP>`: the primary template gives the pack
itself; for `type_pack<T, Ts...>` the head is kept or not by `F<T>::value` and
`type_pack<Ts...>` is concatenated to it. -/
def remove_if {α : Type} (F : α → Bool) : List α → List α
  | [] => []
  | T :: Ts => (if F T then [] else [T]) ++ Ts

/-- The metafunction `__details::remove_all_if_impl<F, TP, void>`. -/
def remove_all_if_impl {α : Type} (F : α → Bool) : List α → List α
  | [] => []
  | T :: Ts => if F T then remove_all_if_impl F Ts else T :: remove_all_if_impl F Ts

/-- The metafunction `remove_all_if<F, TP>`. -/
def remove_all_if {α : Type} (F : α → Bool) (TP : List α) : List α :=
  remove_all_if_impl F TP

/-- The metafunction `transform<F, TP>`: the pack expansion
`type_pack<typename F<Ts>::type...>`. -/
def transform {α : Type} (F : α → α) (TP : List α) : List α := TP.map F

/-- The member template `rep_one_element` of `replace<Old, New, TP>`. -/
def rep_one_element {α : Type} [DecidableEq α] (Old New : α) (T : α) : α :=
  if T = Old then New else T

/-- The metafunction `replace<Old, New, TP>`. -/
def replace {α : Type} [DecidableEq α] (Old New : α) (TP : List α) : List α :=
  transform (rep_one_element Old New) TP

/-- The metafunction `__details::lexicographical_compare_impl<TP1, TP2, Less, void>`.
On two non-empty packs the specialisations are selected by `Less<T, U>` and
`Less<U, T>`; when both hold, the two last specialisations match and neither is
more specialised, so there is no `value`. -/
def lexicographical_compare_impl {α : Type} (Less : α → α → Bool) :
    List α → List α → Option Bool
  | [], [] => some false
  | [], _ :: _ => some true
  | _ :: _, [] => some false
  | T :: Ts, U :: Us =>
    if !Less T U && !Less U T then lexicographical_compare_impl Less Ts Us
    else if Less T U && Less U T then none
    else if Less T U then some true
    else some false

/-- The metafunction `lexicographical_compare<TP1, TP2, Less>`. -/
def lexicographical_compare {α : Type} (TP1 TP2 : List α) (Less : α → α → Bool) :
    Option Bool :=
  lexicographical_compare_impl Less TP1 TP2

/-- The metafunction `__details::max_impl<TP, CurMax, Less>`.  The type
`empty_type` is a token like any other; the specialisation for
`CurMax = empty_type` is the more specialised one and takes the head without
asking `Less`. -/
def max_impl {α : Type} [DecidableEq α] (empty_type : α) (Less : α → α → Bool) :
    List α → α → α
  | [], CurMax => CurMax
  | T :: Ts, CurMax =>
    if CurMax = empty_type then max_impl empty_type Less Ts T
    else max_impl empty_type Less Ts (if Less CurMax T then T else CurMax)

/-- The alias `max_t<TP, Less>`, that is `max_impl<TP, empty_type, Less>::type`. -/
def max_t {α : Type} [DecidableEq α] (empty_type : α) (TP : List α)
    (Less : α → α → Bool) : α :=
  max_impl empty_type Less TP empty_type

/-- The comparison of the natural numbers by their tens (tokens compared by a
weight, as `sizeof_less` compares by size), used on concrete packs. -/
def byTens (a b : Nat) : Bool := decide (a / 10 < b / 10)

/-- The metafunction `__details::min_impl<TP, CurMin, Less>`: the running minimum
stays when `Less<CurMin, T>` holds and is replaced by the head otherwise; as in
`max_impl`, the specialisation for `CurMin = empty_type` takes the head without
asking `Less`. -/
def min_impl {α : Type} [DecidableEq α] (empty_type : α) (Less : α → α → Bool) :
    List α → α → α
  | [], CurMin => CurMin
  | T :: Ts, CurMin =>
    if CurMin = empty_type then min_impl empty_type Less Ts T
    else min_impl empty_type Less Ts (if Less CurMin T then CurMin else T)

/-- The alias `min_t<TP, Less>`, that is `min_impl<TP, empty_type, Less>::type`. -/
def min_t {α : Type} [DecidableEq α] (empty_type : α) (TP : List α)
    (Less : α → α → Bool) : α :=
  min_impl empty_type Less TP empty_type

/-- The metafunction `__details::count_impl<T, Count, TP>`. -/
def count_impl {α : Type} [DecidableEq α] (T : α) : Nat → List α → Nat
  | Count, [] => Count
  | Count, U :: Ts => if T = U then count_impl T (Count + 1) Ts else count_impl T Count Ts

/-- The metafunction `count<T, TP>`. -/
def count {α : Type} [DecidableEq α] (T : α) (TP : List α) : Nat := count_impl T 0 TP

/-- The metafunction `__details::count_if_impl<F, Count, TP>`. -/
def count_if_impl {α : Type} (F : α → Bool) : Nat → List α → Nat
  | Count, [] => Count
  | Count, T :: Ts =>
    let counter := if F T then Count + 1 else Count
    count_if_impl F counter Ts

/-- The metafunction `count_if<F, TP>`. -/
def count_if {α : Type} (F : α → Bool) (TP : List α) : Nat := count_if_impl F 0 TP

/-- The metafunction `all_of<F, TP>`. -/
def all_of {α : Type} (F : α → Bool) : List α → Bool
  | [] => true
  | T :: Ts => F T && all_of F Ts

/-- The metafunction `any_of<F, TP>`. -/
def any_of {α : Type} (F : α → Bool) : List α → Bool
  | [] => false
  | T :: Ts => F T || any_of F Ts

/-- The metafunction `none_of<F, TP>`. -/
def none_of {α : Type} (F : α → Bool) (TP : List α) : Bool := !any_of F TP

/-- The metafunction `is_equal<T, U>`: the primary template is `std::false_type`; the
three specialisations (two equal packs, two equal `just_type`s, `just_type<T>` with
`type_pack<T>` in this order) are `std::true_type`. -/
def is_equal {α : Type} [DecidableEq α] : Operand α → Operand α → Bool
  | .pack ts, .pack us => decide (ts = us)
  | .just t, .just u => decide (t = u)
  | .just t, .pack us => decide (us = [t])
  | _, _ => false

/-- The metafunction `is_not_equal<T, U>`. -/
def is_not_equal {α : Type} [DecidableEq α] (T U : Operand α) : Bool := !is_equal T U

/-- The metafunction `head<TP>`: the primary template has no member `type`. -/
def head {α : Type} : List α → Option α
  | [] => none
  | T :: _ => some T

/-- The metafunction `tail<TP>`: the primary template has no member `type`. -/
def tail {α : Type} : List α → Option (List α)
  | [] => none
  | _ :: Ts => some Ts

/-- The metafunction `generate<N, T>`: `empty_pack` for `0`, otherwise `T` in front
of `generate<N - 1, T>::type`. -/
def generate {α : Type} : Nat → α → List α
  | 0, _ => []
  | N + 1, T => T :: generate N T

/-- What `conjunction` and `disjunction` derive from: `std::true_type`,
`std::false_type`, or one of their operands. -/
inductive Base (β : Type) where
  | true_type : Base β
  | false_type : Base β
  | operand (B : β) : Base β
  deriving DecidableEq, Repr

/-- The member `value` of a base, given the `value` of every operand. -/
def Base.value {β : Type} (value : β → Bool) : Base β → Bool
  | .true_type => true
  | .false_type => false
  | .operand B => value B

/-- The metafunction `conjunction<B...>`: `std::true_type` without operands, the
operand itself for one operand, otherwise `conjunction` of the others if
`bool(B1::value)` and `B1` if not. -/
def conjunction {β : Type} (value : β → Bool) : List β → Base β
  | [] => .true_type
  | [B] => .operand B
  | B1 :: B2 :: B => if value B1 then conjunction value (B2 :: B) else .operand B1

/-- The metafunction `disjunction<B...>`: `std::false_type` without operands, the
operand itself for one operand, otherwise `B1` if `bool(B1::value)` and
`disjunction` of the others if not. -/
def disjunction {β : Type} (value : β → Bool) : List β → Base β
  | [] => .false_type
  | [B] => .operand B
  | B1 :: B2 :: B => if value B1 then .operand B1 else disjunction value (B2 :: B)

/-- The metafunction `negation<B>`: its `value` is `!B::value`. -/
def negation {β : Type} (value : β → Bool) (B : β) : Bool := !value B

/-- The metafunction `base_is_less<A, B>`, that is
`_and_<std::is_base_of<A, B>, _not_<std::is_same<A, B>>>`; the trait
`std::is_base_of` of the standard library is a parameter. -/
def base_is_less {α : Type} [DecidableEq α] (is_base_of : α → α → Bool) (A B : α) : Bool :=
  (conjunction id [is_base_of A B, negation id (decide (A = B))]).value id

/-- The metafunction `derived_is_less<A, B>`, that is
`_and_<std::is_base_of<B, A>, _not_<std::is_same<A, B>>>`. -/
def derived_is_less {α : Type} [DecidableEq α] (is_base_of : α → α → Bool) (A B : α) :
    Bool :=
  (conjunction id [is_base_of B A, negation id (decide (A = B))]).value id

/-- What an instance `F<A, B>` of a class template shows to the library: its member
constant `value`, and its member typedef `type` when it has one, given by the
`value` of that type. -/
structure MetaClass where
  value : Bool
  type_value : Option Bool
  deriving DecidableEq, Repr

/-- The class `std::integral_constant<bool, v>`, and any class derived from it: its
member `type` is `integral_constant<bool, v>` itself. -/
def integral_constant (v : Bool) : MetaClass := ⟨v, some v⟩

/-- The metafunction `sizeof_less<A, B>`, derived from
`std::integral_constant<bool, (sizeof(A) < sizeof(B))>`; `sizeof` is a parameter. -/
def sizeof_less {α : Type} (size_of : α → Nat) (A B : α) : MetaClass :=
  integral_constant (decide (size_of A < size_of B))

/-- The metafunction `sizeof_more<A, B>`, derived from
`std::integral_constant<bool, (sizeof(A) > sizeof(B))>`. -/
def sizeof_more {α : Type} (size_of : α → Nat) (A B : α) : MetaClass :=
  integral_constant (decide (size_of A > size_of B))

/-- A class template of two type parameters as a `template <class...> class F`: it
has an instance for exactly two arguments. -/
def binary_template {α : Type} (C : α → α → MetaClass) : List α → Option MetaClass
  | [A, B] => some (C A B)
  | _ => none

/-- The member alias template `part_caller<F, Ts...>::type<Us...>`, that is
`typename F<Ts..., Us...>::type`, read as a predicate: the `value` of that member
`type`, when `F<Ts..., Us...>` is an instance and has a member `type`. -/
def part_caller {α : Type} (F : List α → Option MetaClass) (Ts Us : List α) : Option Bool :=
  (F (Ts ++ Us)).bind fun c => c.type_value

/-- The reading of `unique` by consecutive groups, first step: the tokens of a pack
that follow a token `prev`, a token being dropped when it repeats the one before
it. -/
def collapse_from {α : Type} [DecidableEq α] (prev : α) : List α → List α
  | [] => []
  | T :: Ts => if T = prev then collapse_from prev Ts else T :: collapse_from T Ts

/-- The reading of `unique` by consecutive groups: the pack with every maximal run
of adjacent identical tokens collapsed to its first token. -/
def collapse_runs {α : Type} [DecidableEq α] : List α → List α
  | [] => []
  | T :: Ts => T :: collapse_from T Ts

/-- The copy that always rebuilds the slice token by token: `copy_impl` with
`tail_t` always `recursive_copy`, never `just_tail`. -/
def copy_impl_rebuild {α : Type} (Begin End : Nat) : Nat → List α → Option (List α)
  | Current, [] =>
    if !indexes_ok Begin End then none
    else if Current = End then some []
    else none
  | Current, T :: Ts =>
    if !indexes_ok Begin End then none
    else if Current < Begin then copy_impl_rebuild Begin End (Current + 1) Ts
    else if Current < End then
      (copy_impl_rebuild Begin End (Current + 1) Ts).bind fun recursive_copy =>
        concatenate [.just T, .pack recursive_copy]
    else if Current = End then some []
    else none

/-- The metafunction `copy` over `copy_impl_rebuild`. -/
def copy_rebuild {α : Type} (TP : List α) (StartIdx EndIdx : Nat) : Option (List α) :=
  copy_impl_rebuild StartIdx EndIdx 0 TP

/-- Two tokens are equivalent under `Less`: neither is less than the other. -/
def equivalent {α : Type} (Less : α → α → Bool) (x y : α) : Bool :=
  !Less x y && !Less y x

/-! # Theorems -/

/-! ## concatenate -/

theorem concatenate_pack_pack {α : Type} (ts us : List α) :
    concatenate [.pack ts, .pack us] = some (ts ++ us) := rfl

theorem concatenate_just_pack {α : Type} (t : α) (ts : List α) :
    concatenate [.just t, .pack ts] = some (t :: ts) := rfl

/-! ## copy_if, remove -/

theorem copy_if_eq_filter {α : Type} (Pred : α → Bool) (l : List α) :
    copy_if Pred l = l.filter Pred := by
  induction l with
  | nil => rfl
  | cons T Ts ih =>
    simp only [copy_if, ih, List.filter_cons]
    cases Pred T <;> simp

theorem remove_head {α : Type} [DecidableEq α] (T : α) (Ts : List α) :
    remove T (T :: Ts) = Ts := by
  simp [remove]

/-! ## sort -/

theorem sort_step {α : Type} [DecidableEq α] (Less : α → α → Bool) (fuel : Nat)
    (T U : α) (Us : List α) :
    sort Less (fuel + 1) (T :: U :: Us) =
      (sort Less fuel ((T :: U :: Us).filter (fun E => Less E T))).bind fun lt =>
        (sort Less fuel ((U :: Us).filter (fun E => !Less E T))).bind fun gte =>
          some (lt ++ T :: gte) := by
  simp only [sort, at_t, at_helper, if_true, Option.some_bind, remove_head,
    copy_if_eq_filter, concatenate, concatenate2]

theorem filter_pivot_irrefl {α : Type} (Less : α → α → Bool) (T : α) (Ts : List α)
    (hT : Less T T = false) :
    (T :: Ts).filter (fun E => Less E T) = Ts.filter (fun E => Less E T) := by
  simp [List.filter_cons, hT]

theorem sort_some_perm {α : Type} [DecidableEq α] (Less : α → α → Bool)
    (hirr : ∀ a, Less a a = false) :
    ∀ (fuel : Nat) (S r : List α), sort Less fuel S = some r → r.Perm S := by
  intro fuel
  induction fuel with
  | zero => intro S r h; simp [sort] at h
  | succ f ih =>
    intro S r h
    match S, h with
    | [], h => simp [sort] at h; subst h; exact List.Perm.refl _
    | [T], h => simp [sort] at h; subst h; exact List.Perm.refl _
    | T :: U :: Us, h =>
      rw [sort_step, filter_pivot_irrefl Less T _ (hirr T)] at h
      obtain ⟨lt, hlt, h⟩ := Option.bind_eq_some.mp h
      obtain ⟨gte, hgte, h⟩ := Option.bind_eq_some.mp h
      simp only [Option.some.injEq] at h
      subst h
      have h1 := ih _ _ hlt
      have h2 := ih _ _ hgte
      refine List.perm_middle.trans (List.Perm.cons T ?_)
      exact (List.Perm.append h1 h2).trans (List.filter_append_perm _ _)

theorem sort_some_ascending {α : Type} [DecidableEq α] (Less : α → α → Bool)
    (hirr : ∀ a, Less a a = false)
    (htrans : ∀ a b c, Less a b = true → Less b c = true → Less a c = true) :
    ∀ (fuel : Nat) (S r : List α), sort Less fuel S = some r →
      r.Pairwise (fun x y => Less y x = false) := by
  intro fuel
  induction fuel with
  | zero => intro S r h; simp [sort] at h
  | succ f ih =>
    intro S r h
    match S, h with
    | [], h => simp [sort] at h; subst h; exact List.Pairwise.nil
    | [T], h => simp [sort] at h; subst h; simp
    | T :: U :: Us, h =>
      rw [sort_step, filter_pivot_irrefl Less T _ (hirr T)] at h
      obtain ⟨lt, hlt, h⟩ := Option.bind_eq_some.mp h
      obtain ⟨gte, hgte, h⟩ := Option.bind_eq_some.mp h
      simp only [Option.some.injEq] at h
      subst h
      have p1 := sort_some_perm Less hirr _ _ _ hlt
      have p2 := sort_some_perm Less hirr _ _ _ hgte
      have mlt : ∀ x ∈ lt, Less x T = true := fun x hx => by
        have := (List.mem_filter.mp (p1.subset hx)).2
        simpa using this
      have mgte : ∀ y ∈ gte, Less y T = false := fun y hy => by
        have := (List.mem_filter.mp (p2.subset hy)).2
        simpa using this
      rw [List.pairwise_append]
      refine ⟨ih _ _ hlt, List.pairwise_cons.mpr ⟨mgte, ih _ _ hgte⟩, ?_⟩
      intro x hx y hy
      rcases List.mem_cons.mp hy with rfl | hy
      · cases hyx : Less y x
        · rfl
        · have := htrans _ _ _ (mlt x hx) hyx
          rw [hirr] at this
          exact absurd this (by simp)
      · cases hyx : Less y x
        · rfl
        · have := htrans _ _ _ hyx (mlt x hx)
          rw [mgte y hy] at this
          exact absurd this (by simp)

theorem sort_terminates {α : Type} [DecidableEq α] (Less : α → α → Bool)
    (hirr : ∀ a, Less a a = false) :
    ∀ (fuel : Nat) (S : List α), S.length < fuel → ∃ r, sort Less fuel S = some r := by
  intro fuel
  induction fuel with
  | zero => intro S h; omega
  | succ f ih =>
    intro S hS
    match S, hS with
    | [], _ => exact ⟨[], by simp [sort]⟩
    | [T], _ => exact ⟨[T], by simp [sort]⟩
    | T :: U :: Us, hS =>
      rw [sort_step, filter_pivot_irrefl Less T _ (hirr T)]
      have l1 : ((U :: Us).filter (fun E => Less E T)).length < f :=
        lt_of_le_of_lt (List.length_filter_le _ _) (by simpa using hS)
      have l2 : ((U :: Us).filter (fun E => !Less E T)).length < f :=
        lt_of_le_of_lt (List.length_filter_le _ _) (by simpa using hS)
      obtain ⟨lt, hlt⟩ := ih _ l1
      obtain ⟨gte, hgte⟩ := ih _ l2
      exact ⟨lt ++ T :: gte, by simp [hlt, hgte]⟩

theorem sort_fuel_succ {α : Type} [DecidableEq α] (Less : α → α → Bool) :
    ∀ (fuel : Nat) (S r : List α), sort Less fuel S = some r →
      sort Less (fuel + 1) S = some r := by
  intro fuel
  induction fuel with
  | zero => intro S r h; simp [sort] at h
  | succ f ih =>
    intro S r h
    match S, h with
    | [], h => simpa [sort] using h
    | [T], h => simpa [sort] using h
    | T :: U :: Us, h =>
      rw [sort_step] at h ⊢
      obtain ⟨lt, hlt, h⟩ := Option.bind_eq_some.mp h
      obtain ⟨gte, hgte, h⟩ := Option.bind_eq_some.mp h
      simp [ih _ _ hlt, ih _ _ hgte, h]

theorem sort_fuel_mono {α : Type} [DecidableEq α] (Less : α → α → Bool)
    (S r : List α) (f g : Nat) (hfg : f ≤ g) (h : sort Less f S = some r) :
    sort Less g S = some r := by
  induction hfg with
  | refl => exact h
  | step _ ih => exact sort_fuel_succ Less _ _ _ ih

theorem sort_total {α : Type} [DecidableEq α] (Less : α → α → Bool)
    (hirr : ∀ a, Less a a = false) (S : List α) :
    ∃ r, ∀ fuel, S.length < fuel → sort Less fuel S = some r := by
  obtain ⟨r, hr⟩ := sort_terminates Less hirr (S.length + 1) S (Nat.lt_succ_self _)
  exact ⟨r, fun fuel hf => sort_fuel_mono Less S r _ _ hf hr⟩

theorem natLess_swo : StrictWeakOrder natLess where
  irrefl := by intro a; simp [natLess]
  trans := by
    intro a b c h1 h2
    simp only [natLess, decide_eq_true_eq] at *
    omega
  incomp_trans := by
    intro a b c h1 h2 h3 h4
    simp only [natLess, decide_eq_false_iff_not, decide_eq_true_eq] at *
    omega

theorem natLess_total (a b : Nat) (h1 : natLess a b = false) (h2 : natLess b a = false) :
    a = b := by
  simp only [natLess, decide_eq_false_iff_not] at h1 h2
  omega

theorem is_sorted_impl_of_pairwise {α : Type} (Less : α → α → Bool) :
    ∀ l : List α, l.Pairwise (fun x y => Less y x = false) → is_sorted_impl Less l = true
  | [], _ => rfl
  | [_], _ => rfl
  | T1 :: T2 :: Ts, h => by
    have h12 : Less T2 T1 = false := (List.pairwise_cons.mp h).1 T2 (List.mem_cons_self _ _)
    have hTs : Ts.Pairwise (fun x y => Less y x = false) :=
      (List.pairwise_cons.mp (List.pairwise_cons.mp h).2).2
    simp [is_sorted_impl, h12, is_sorted_impl_of_pairwise Less Ts hTs]

/-- C1: for a strict weak order `Less`, `sort<S, Less>` has a member `type` (one and
the same for every instantiation budget above the size of `S`), and it is a
permutation of `S`, so of the same size. -/
theorem sort_is_permutation {α : Type} [DecidableEq α] (Less : α → α → Bool)
    (hLess : StrictWeakOrder Less) (S : List α) :
    ∃ r, (∀ fuel, S.length < fuel → sort Less fuel S = some r) ∧
      r.Perm S ∧ size r = size S := by
  obtain ⟨r, hr⟩ := sort_total Less hLess.irrefl S
  have hp := sort_some_perm Less hLess.irrefl _ S r (hr _ (Nat.lt_succ_self _))
  exact ⟨r, hr, hp, hp.length_eq⟩

theorem sort_is_permutation_witness :
    StrictWeakOrder natLess ∧
      ∃ r, (∀ fuel, [2, 0, 3, 1].length < fuel → sort natLess fuel [2, 0, 3, 1] = some r) ∧
        r.Perm [2, 0, 3, 1] ∧ size r = size [2, 0, 3, 1] :=
  ⟨natLess_swo, sort_is_permutation natLess natLess_swo [2, 0, 3, 1]⟩

/-- C2: for a strict weak order `Less`, the pack `sort<S, Less>::type` is ascending:
at no two positions `i < j` is the later token less than the earlier one; so
`is_sorted` holds of it; and when distinct tokens are always comparable it is the
only ascending permutation of `S`. -/
theorem sort_is_ascending {α : Type} [DecidableEq α] (Less : α → α → Bool)
    (hLess : StrictWeakOrder Less) (S : List α) :
    ∃ r, (∀ fuel, S.length < fuel → sort Less fuel S = some r) ∧
      (∀ (i j : Nat) (x y : α), i < j → r[i]? = some x → r[j]? = some y →
        Less y x = false) ∧
      is_sorted Less r = true ∧
      ((∀ a b, Less a b = false → Less b a = false → a = b) →
        ∀ r2 : List α, r2.Perm S → r2.Pairwise (fun x y => Less y x = false) → r2 = r) := by
  obtain ⟨r, hr⟩ := sort_total Less hLess.irrefl S
  have h1 := hr _ (Nat.lt_succ_self _)
  have hp := sort_some_perm Less hLess.irrefl _ S r h1
  have ha := sort_some_ascending Less hLess.irrefl hLess.trans _ S r h1
  refine ⟨r, hr, ?_, is_sorted_impl_of_pairwise Less r ha, ?_⟩
  · intro i j x y hij hx hy
    obtain ⟨hi, rfl⟩ := List.getElem?_eq_some.mp hx
    obtain ⟨hj, rfl⟩ := List.getElem?_eq_some.mp hy
    exact List.pairwise_iff_getElem.mp ha i j hi hj hij
  · intro htot r2 hp2 ha2
    haveI : IsAntisymm α (fun x y => Less y x = false) := ⟨fun a b hab hba => htot a b hba hab⟩
    exact List.eq_of_perm_of_sorted (hp2.trans hp.symm) ha2 ha

theorem sort_is_ascending_witness :
    StrictWeakOrder natLess ∧ sort natLess 5 [2, 0, 3, 1] = some [0, 1, 2, 3] ∧
      is_sorted natLess [0, 1, 2, 3] = true := by
  obtain ⟨r, hr, _, hs, hu⟩ := sort_is_ascending natLess natLess_swo [2, 0, 3, 1]
  have e : [0, 1, 2, 3] = r := hu natLess_total [0, 1, 2, 3] (by decide) (by decide)
  subst e
  exact ⟨natLess_swo, hr 5 (by decide), hs⟩

/-- C3 (the code at the failing input): `is_sorted` holds of the pack `{0, 2, 1}`
under the order of the naturals, although its adjacent pair `(2, 1)` has
`Less<1, 2>`; the recursion continues with `type_pack<Ts...>` and never compares
`T2` with its successor. -/
theorem is_sorted_misses_pair :
    is_sorted natLess [0, 2, 1] = true ∧ natLess 1 2 = true := by
  decide

/-! ## remove_all, unique -/

theorem remove_all_eq_filter {α : Type} [DecidableEq α] (T : α) (l : List α) :
    remove_all T l = l.filter (fun U => !decide (T = U)) := by
  induction l with
  | nil => rfl
  | cons U Us ih =>
    by_cases h : T = U
    · simp only [remove_all, if_pos h, ih]
      rw [List.filter_cons_of_neg (by simp [h])]
    · simp only [remove_all, if_neg h, ih]
      rw [List.filter_cons_of_pos (by simp [h])]

theorem unique_cons {α : Type} [DecidableEq α] (T : α) (Ts : List α) :
    unique (T :: Ts) = T :: unique (remove_all T Ts) := by
  rw [unique]

theorem mem_remove_all {α : Type} [DecidableEq α] (T x : α) (l : List α) :
    x ∈ remove_all T l ↔ x ∈ l ∧ T ≠ x := by
  simp [remove_all_eq_filter, List.mem_filter]

theorem remove_all_length_le {α : Type} [DecidableEq α] (T : α) (l : List α) :
    (remove_all T l).length ≤ l.length := by
  rw [remove_all_eq_filter]
  exact List.length_filter_le _ _

theorem remove_all_of_not_mem {α : Type} [DecidableEq α] (T : α) (l : List α)
    (h : T ∉ l) : remove_all T l = l := by
  rw [remove_all_eq_filter, List.filter_eq_self]
  intro a ha
  have : T ≠ a := fun e => h (e ▸ ha)
  simp [this]

theorem mem_unique {α : Type} [DecidableEq α] :
    ∀ (n : Nat) (l : List α), l.length ≤ n → ∀ x, x ∈ unique l ↔ x ∈ l := by
  intro n
  induction n with
  | zero =>
    intro l hl x
    have : l = [] := List.length_eq_zero.mp (Nat.le_zero.mp hl)
    subst this
    simp [unique]
  | succ n ih =>
    intro l hl x
    match l, hl with
    | [], _ => simp [unique]
    | T :: Ts, hl =>
      have hlen : (remove_all T Ts).length ≤ n :=
        le_trans (remove_all_length_le T Ts) (by simpa using hl)
      rw [unique_cons, List.mem_cons, ih _ hlen, mem_remove_all, List.mem_cons]
      constructor
      · rintro (h | ⟨h, _⟩)
        · exact Or.inl h
        · exact Or.inr h
      · rintro (h | h)
        · exact Or.inl h
        · by_cases e : T = x
          · exact Or.inl e.symm
          · exact Or.inr ⟨h, e⟩

theorem nodup_unique {α : Type} [DecidableEq α] :
    ∀ (n : Nat) (l : List α), l.length ≤ n → (unique l).Nodup := by
  intro n
  induction n with
  | zero =>
    intro l hl
    have : l = [] := List.length_eq_zero.mp (Nat.le_zero.mp hl)
    subst this
    simp [unique]
  | succ n ih =>
    intro l hl
    match l, hl with
    | [], _ => simp [unique]
    | T :: Ts, hl =>
      have hlen : (remove_all T Ts).length ≤ n :=
        le_trans (remove_all_length_le T Ts) (by simpa using hl)
      rw [unique_cons, List.nodup_cons]
      refine ⟨?_, ih _ hlen⟩
      rw [mem_unique _ _ le_rfl, mem_remove_all]
      exact fun h => h.2 rfl

theorem indexOf_filter_lt {α : Type} [DecidableEq α] (p : α → Bool) (x y : α)
    (hx : p x = true) (hy : p y = true) :
    ∀ l : List α, (l.filter p).indexOf x < (l.filter p).indexOf y →
      l.indexOf x < l.indexOf y := by
  intro l
  induction l with
  | nil => simp
  | cons a l ih =>
    intro h
    by_cases hpa : p a = true
    · rw [List.filter_cons_of_pos hpa] at h
      by_cases hax : a = x
      · subst hax
        by_cases hay : a = y
        · subst hay
          simp at h
        · rw [List.indexOf_cons_self, List.indexOf_cons_ne _ hay]
          exact Nat.succ_pos _
      · by_cases hay : a = y
        · subst hay
          simp at h
        · rw [List.indexOf_cons_ne _ hax, List.indexOf_cons_ne _ hay] at h ⊢
          exact Nat.succ_lt_succ (ih (Nat.lt_of_succ_lt_succ h))
    · rw [List.filter_cons_of_neg hpa] at h
      have hax : a ≠ x := fun e => hpa (e ▸ hx)
      have hay : a ≠ y := fun e => hpa (e ▸ hy)
      rw [List.indexOf_cons_ne _ hax, List.indexOf_cons_ne _ hay]
      exact Nat.succ_lt_succ (ih h)

theorem unique_ordered {α : Type} [DecidableEq α] :
    ∀ (n : Nat) (l : List α), l.length ≤ n →
      (unique l).Pairwise (fun x y => l.indexOf x < l.indexOf y) := by
  intro n
  induction n with
  | zero =>
    intro l hl
    have : l = [] := List.length_eq_zero.mp (Nat.le_zero.mp hl)
    subst this
    simp [unique]
  | succ n ih =>
    intro l hl
    match l, hl with
    | [], _ => simp [unique]
    | T :: Ts, hl =>
      have hlen : (remove_all T Ts).length ≤ n :=
        le_trans (remove_all_length_le T Ts) (by simpa using hl)
      rw [unique_cons, List.pairwise_cons]
      constructor
      · intro y hy
        have hTy : T ≠ y := ((mem_remove_all T y Ts).mp ((mem_unique _ _ le_rfl y).mp hy)).2
        rw [List.indexOf_cons_self, List.indexOf_cons_ne _ hTy]
        exact Nat.succ_pos _
      · have hmem : ∀ z ∈ unique (remove_all T Ts), T ≠ z := fun z hz =>
          ((mem_remove_all T z Ts).mp ((mem_unique _ _ le_rfl z).mp hz)).2
        refine List.Pairwise.imp_of_mem ?_ (ih _ hlen)
        intro x y hx hy hxy
        have hTx := hmem x hx
        have hTy := hmem y hy
        rw [List.indexOf_cons_ne _ hTx, List.indexOf_cons_ne _ hTy]
        rw [remove_all_eq_filter] at hxy
        exact Nat.succ_lt_succ
          (indexOf_filter_lt _ x y (by simp [hTx]) (by simp [hTy]) Ts hxy)

theorem unique_of_nodup {α : Type} [DecidableEq α] :
    ∀ l : List α, l.Nodup → unique l = l := by
  intro l
  induction l with
  | nil => intro _; simp [unique]
  | cons T Ts ih =>
    intro h
    rw [List.nodup_cons] at h
    rw [unique_cons, remove_all_of_not_mem T Ts h.1, ih h.2]

/-- C4: `unique<S>::type` holds each token of `S` exactly once (and no other
token), in the order of the first occurrences in `S`; `unique` of `{a,b,a,c,b}`
(tokens numbered `0, 1, 2`) is `{a,b,c}`. -/
theorem unique_first_occurrences :
    (∀ (α : Type) [DecidableEq α] (S : List α),
      (∀ x, (unique S).count x = if x ∈ S then 1 else 0) ∧
      (unique S).Pairwise (fun x y => S.indexOf x < S.indexOf y)) ∧
    unique [0, 1, 0, 2, 1] = [0, 1, 2] := by
  refine ⟨?_, by simp [unique, remove_all]⟩
  intro α _ S
  refine ⟨?_, unique_ordered _ S le_rfl⟩
  intro x
  by_cases hx : x ∈ S
  · rw [if_pos hx]
    exact List.count_eq_one_of_mem (nodup_unique _ S le_rfl) ((mem_unique _ S le_rfl x).mpr hx)
  · rw [if_neg hx]
    exact List.count_eq_zero_of_not_mem (fun h => hx ((mem_unique _ S le_rfl x).mp h))

/-- C5: `unique` is idempotent. -/
theorem unique_idempotent {α : Type} [DecidableEq α] (S : List α) :
    unique (unique S) = unique S :=
  unique_of_nodup _ (nodup_unique _ S le_rfl)

/-! ## concatenate, push and pop -/

theorem concatenate2_wrapped {α : Type} (a : Operand α) (r : List α)
    (ha : a.wrapped = true) : concatenate2 a (.pack r) = some (a.elems ++ r) := by
  cases a with
  | pack ts => rfl
  | just t => rfl
  | bare t => simp [Operand.wrapped] at ha

theorem concatenate2_wrapped_both {α : Type} (a b : Operand α)
    (ha : a.wrapped = true) (hb : b.wrapped = true) :
    concatenate2 a b = some (a.elems ++ b.elems) := by
  cases a <;> cases b <;> simp_all [Operand.wrapped, concatenate2, Operand.elems]

theorem concatenate_cons {α : Type} (a b c : Operand α) (tl : List (Operand α)) :
    concatenate (a :: b :: c :: tl) =
      (concatenate (b :: c :: tl)).bind (fun r => concatenate [a, .pack r]) := by
  simp only [concatenate]

theorem concatenate_elements {α : Type} :
    ∀ os : List (Operand α), 2 ≤ os.length → (∀ o ∈ os, o.wrapped = true) →
      concatenate os = some (elements os)
  | [], h, _ => by simp at h
  | [_], h, _ => by simp at h
  | [a, b], _, hw => by
    have ha := hw a (by simp)
    have hb := hw b (by simp)
    simp [concatenate, concatenate2_wrapped_both a b ha hb, elements]
  | a :: b :: c :: tl, _, hw => by
    have ha := hw a (by simp)
    have ih := concatenate_elements (b :: c :: tl) (by simp)
      (fun o ho => hw o (List.mem_cons_of_mem _ ho))
    rw [concatenate_cons, ih]
    simp only [Option.some_bind, concatenate]
    rw [concatenate2_wrapped a _ ha]
    rfl

/-- C6: concatenation of two packs has `empty_pack` as left and right identity and
is associative; the nested concatenations have the member `type`. -/
theorem concatenate_monoid {α : Type} (S T U : List α) :
    concatenate [.pack empty_pack, .pack S] = some S ∧
    concatenate [.pack S, .pack empty_pack] = some S ∧
    (concatenate [.pack S, .pack T]).bind (fun st => concatenate [.pack st, .pack U]) =
      (concatenate [.pack T, .pack U]).bind (fun tu => concatenate [.pack S, .pack tu]) ∧
    (concatenate [.pack S, .pack T]).bind (fun st => concatenate [.pack st, .pack U]) =
      some (S ++ T ++ U) := by
  simp [concatenate, concatenate2, empty_pack]

/-- C7: for two or more operands, each a `type_pack` or a `just_type`,
`concatenate` has the member `type`, the tokens of the operands in order (a
`just_type` giving its one token); with three or more operands it is
`concatenate` of the first operand and of the `concatenate` of the others. -/
theorem concatenate_variadic {α : Type} (os : List (Operand α)) (hn : 2 ≤ os.length)
    (hw : ∀ o ∈ os, o.wrapped = true) :
    concatenate os = some (elements os) ∧
    (∀ (o1 : Operand α) (rest : List (Operand α)), os = o1 :: rest → 2 ≤ rest.length →
      concatenate os = (concatenate rest).bind (fun r => concatenate [o1, .pack r])) := by
  refine ⟨concatenate_elements os hn hw, ?_⟩
  intro o1 rest hos hrest
  subst hos
  match rest, hrest with
  | b :: c :: tl, _ => exact concatenate_cons o1 b c tl

theorem concatenate_variadic_witness :
    concatenate [Operand.just 0, .just 1, .pack [2, 3], .just 4] = some [0, 1, 2, 3, 4] ∧
    concatenate [Operand.just 0, .just 1, .pack [2, 3], .just 4] =
      (concatenate [Operand.just 1, .pack [2, 3], .just 4]).bind
        (fun r => concatenate [.just 0, .pack r]) :=
  have h := concatenate_variadic [Operand.just 0, .just 1, .pack [2, 3], .just 4]
    (by decide) (by decide)
  ⟨h.1, h.2 _ _ rfl (by decide)⟩

/-- C8: `pop_front` of `push_front<x, S>` is `S`, for every token and every pack. -/
theorem pop_front_push_front {α : Type} (x : α) (S : List α) :
    pop_front (push_front x S) = S := rfl

theorem pop_back_eq {α : Type} :
    ∀ S : List α, pop_back S = if S.length % 2 = 1 then some S.dropLast else none
  | [] => rfl
  | [_] => rfl
  | T :: U :: Ts => by
    have ih := pop_back_eq Ts
    have hl : (T :: U :: Ts).length % 2 = Ts.length % 2 := by
      simp only [List.length_cons]
      omega
    rw [pop_back, ih, hl]
    by_cases h : Ts.length % 2 = 1
    · have hne : Ts ≠ [] := by
        intro e
        subst e
        simp at h
      obtain ⟨V, Vs, rfl⟩ := List.exists_cons_of_ne_nil hne
      rw [if_pos h, if_pos h]
      rfl
    · rw [if_neg h, if_neg h]
      rfl

/-- C9 (the code at the failing input): `pop_back` of a two-element pack has no
member `type`: the specialisation for `type_pack<T, U, Ts...>` asks for
`pop_back<type_pack<>>::type`, and the primary template is never defined. -/
theorem pop_back_two_elements {α : Type} (a b : α) : pop_back [a, b] = none := rfl

/-! ## copy -/

theorem copy_impl_bad_indexes {α : Type} (b e : Nat) (hbe : ¬ b ≤ e) :
    ∀ (l : List α) (cur : Nat), copy_impl b e cur l = none := by
  intro l cur
  cases l <;> simp [copy_impl, indexes_ok, hbe]

theorem copy_impl_eq {α : Type} (b e : Nat) (hbe : b ≤ e) :
    ∀ (l : List α) (cur : Nat), cur ≤ e →
      copy_impl b e cur l =
        if e - cur ≤ l.length then some ((l.drop (b - cur)).take (e - max b cur)) else none := by
  intro l
  induction l with
  | nil =>
    intro cur hcur
    by_cases h : cur = e
    · subst h
      simp [copy_impl, indexes_ok, hbe]
    · have h2 : ¬ e - cur ≤ 0 := by omega
      simp [copy_impl, indexes_ok, hbe, h, h2]
  | cons T Ts ih =>
    intro cur hcur
    have hok : (!indexes_ok b e) = false := by simp [indexes_ok, hbe]
    by_cases h1 : cur < b
    · have hcur1 : cur + 1 ≤ e := by omega
      have e1 : b - cur = (b - (cur + 1)) + 1 := by omega
      have e2 : max b cur = b := by omega
      have e3 : max b (cur + 1) = b := by omega
      have e4 : (e - cur ≤ (T :: Ts).length) ↔ (e - (cur + 1) ≤ Ts.length) := by
        simp only [List.length_cons]
        omega
      simp only [copy_impl, hok, if_pos h1, ih (cur + 1) hcur1, e2, e3, e4]
      rw [e1, List.drop_succ_cons]
      simp
    · by_cases h2 : cur < e
      · have hcur1 : cur + 1 ≤ e := by omega
        have e1 : b - cur = 0 := by omega
        have e1b : b - (cur + 1) = 0 := by omega
        have e2 : max b cur = cur := by omega
        have e3 : max b (cur + 1) = cur + 1 := by omega
        have e4 : (e - cur ≤ (T :: Ts).length) ↔ (e - (cur + 1) ≤ Ts.length) := by
          simp only [List.length_cons]
          omega
        have e5 : e - cur = (e - (cur + 1)) + 1 := by omega
        simp only [copy_impl, hok, if_neg h1, if_pos h2, ih (cur + 1) hcur1, e1, e1b, e2,
          e3, e4, List.drop_zero, size]
        by_cases h3 : e - (cur + 1) ≤ Ts.length
        · rw [if_pos h3, if_pos h3, Option.some_bind, e5, List.take_succ_cons]
          by_cases h4 : e - (cur + 1) + 1 = (T :: Ts).length
          · have h5 : e - (cur + 1) = Ts.length := by simpa using h4
            simp [h4, h5, concatenate, concatenate2]
          · have h5 : ¬ e - (cur + 1) = Ts.length := by
              intro h
              exact h4 (by simp [h])
            simp [h5, concatenate, concatenate2]
        · rw [if_neg h3, if_neg h3]
          rfl
      · have h3 : cur = e := by omega
        subst h3
        simp [copy_impl, indexes_ok, hbe, h1]

theorem copy_eq {α : Type} (S : List α) (b e : Nat) :
    copy S b e = if b ≤ e ∧ e ≤ size S then some ((S.drop b).take (e - b)) else none := by
  unfold copy
  by_cases hbe : b ≤ e
  · rw [copy_impl_eq b e hbe S 0 (Nat.zero_le _)]
    have e2 : max b 0 = b := by omega
    simp [hbe, e2, size]
  · rw [copy_impl_bad_indexes b e hbe]
    simp [hbe]

/-- C10: `copy<S, b, e>` has the member `type` exactly when `b <= e` and
`e <= S::size()`, and then it is the pack of the `e - b` tokens of `S` at the
positions `b, ..., e - 1`, in order; `copy` of `{a,b,c,d}` (tokens numbered from
`0`) from `1` to `3` is `{b,c}`. -/
theorem copy_slice :
    (∀ (α : Type) (S : List α) (b e : Nat),
      ((copy S b e).isSome = true ↔ (b ≤ e ∧ e ≤ size S)) ∧
      (∀ r, copy S b e = some r →
        r = (S.drop b).take (e - b) ∧ size r = e - b ∧
          ∀ i, i < e - b → r[i]? = S[b + i]?)) ∧
    copy [0, 1, 2, 3] 1 3 = some [1, 2] := by
  refine ⟨?_, by decide⟩
  intro α S b e
  rw [copy_eq]
  by_cases h : b ≤ e ∧ e ≤ size S
  · rw [if_pos h]
    refine ⟨by simp [h], ?_⟩
    intro r hr
    simp only [Option.some.injEq] at hr
    subst hr
    have hsz : e ≤ S.length := h.2
    refine ⟨rfl, ?_, ?_⟩
    · simp only [size, List.length_take, List.length_drop]
      omega
    · intro i hi
      rw [List.getElem?_take_of_lt hi, List.getElem?_drop]
  · rw [if_neg h]
    simp [h]

/-! ## at, find, find_if, contains -/

theorem at_helper_eq {α : Type} (Idx : Nat) :
    ∀ (l : List α) (Count : Nat), Count ≤ Idx → at_helper Idx Count l = l[Idx - Count]? := by
  intro l
  induction l with
  | nil => intro Count _; simp [at_helper]
  | cons T Ts ih =>
    intro Count hC
    by_cases h : Idx = Count
    · subst h
      simp [at_helper]
    · have e : Idx - Count = (Idx - (Count + 1)) + 1 := by omega
      rw [at_helper, if_neg h, ih (Count + 1) (by omega), e, List.getElem?_cons_succ]

/-- C11: `at_t<i, S>` is the token of `S` at the zero-based position `i`; it has a
member `type` exactly when `i < S::size()`, and none for every `i >= S::size()`,
`i = S::size()` included. -/
theorem at_defined_in_range {α : Type} (S : List α) (i : Nat) :
    at_t i S = S[i]? ∧
    ((at_t i S).isSome = true ↔ i < size S) ∧
    (size S ≤ i → at_t i S = none) ∧
    at_t (size S) S = none := by
  have h : at_t i S = S[i]? := by
    unfold at_t
    rw [at_helper_eq i S 0 (Nat.zero_le _)]
    rfl
  have h2 : at_t (size S) S = none := by
    unfold at_t
    rw [at_helper_eq _ S 0 (Nat.zero_le _)]
    simp [size]
  refine ⟨h, ?_, ?_, h2⟩
  · rw [h]
    by_cases hi : i < S.length
    · simp [size, hi]
    · simp [size, hi, List.getElem?_eq_none (Nat.le_of_not_lt hi)]
  · intro hi
    rw [h]
    exact List.getElem?_eq_none hi

theorem at_defined_in_range_witness :
    at_t 1 [10, 11, 12] = some 11 ∧ (size [10, 11, 12] ≤ 3 ∧ at_t 3 [10, 11, 12] = none) :=
  ⟨(at_defined_in_range [10, 11, 12] 1).1, by decide,
   (at_defined_in_range [10, 11, 12] 3).2.2.1 (by decide)⟩

theorem copy_to_end {α : Type} (S : List α) (From : Nat) (h : From ≤ size S) :
    copy S From (size S) = some (S.drop From) := by
  rw [copy_eq, if_pos ⟨h, le_rfl⟩]
  congr 1
  apply List.take_of_length_le
  simp [size]

theorem find_if_helper_spec {α : Type} (F : α → Bool) :
    ∀ (l : List α) (Idx : Nat),
      Idx ≤ find_if_helper F l Idx ∧ find_if_helper F l Idx ≤ Idx + l.length ∧
      (find_if_helper F l Idx < Idx + l.length →
        ∃ x, l[find_if_helper F l Idx - Idx]? = some x ∧ F x = true) ∧
      (∀ j x, j < find_if_helper F l Idx - Idx → l[j]? = some x → F x = false) := by
  intro l
  induction l with
  | nil => intro Idx; simp [find_if_helper]
  | cons T Ts ih =>
    intro Idx
    by_cases hT : F T = true
    · simp [find_if_helper, hT]
    · obtain ⟨h1, h2, h3, h4⟩ := ih (Idx + 1)
      simp only [find_if_helper, if_neg hT, List.length_cons]
      refine ⟨by omega, by omega, ?_, ?_⟩
      · intro hlt
        obtain ⟨x, hx, hFx⟩ := h3 (by omega)
        refine ⟨x, ?_, hFx⟩
        have e : find_if_helper F Ts (Idx + 1) - Idx =
            (find_if_helper F Ts (Idx + 1) - (Idx + 1)) + 1 := by omega
        rw [e, List.getElem?_cons_succ]
        exact hx
      · intro j x hj hx
        cases j with
        | zero =>
          simp only [List.getElem?_cons_zero, Option.some.injEq] at hx
          subst hx
          simpa using hT
        | succ k =>
          rw [List.getElem?_cons_succ] at hx
          exact h4 k x (by omega) hx

theorem find_helper_eq_find_if_helper {α : Type} [DecidableEq α] (T : α) :
    ∀ (l : List α) (Idx : Nat),
      find_helper T l Idx = find_if_helper (fun U => decide (T = U)) l Idx := by
  intro l
  induction l with
  | nil => intro Idx; rfl
  | cons U Us ih =>
    intro Idx
    by_cases h : T = U <;> simp [find_helper, find_if_helper, h, ih]

theorem find_if_spec {α : Type} (F : α → Bool) (S : List α) (From : Nat)
    (hFrom : From ≤ size S) :
    ∃ i, find_if F S From = some i ∧ From ≤ i ∧ i ≤ size S ∧
      (i < size S → ∃ x, S[i]? = some x ∧ F x = true) ∧
      (∀ j x, From ≤ j → j < i → S[j]? = some x → F x = false) := by
  obtain ⟨h1, h2, h3, h4⟩ := find_if_helper_spec F (S.drop From) From
  have hlen : From + (S.drop From).length = size S := by
    simp only [List.length_drop, size] at *
    omega
  rw [hlen] at h2 h3
  refine ⟨find_if_helper F (S.drop From) From, ?_, h1, h2, ?_, ?_⟩
  · simp [find_if, copy_to_end S From hFrom]
  · intro hlt
    obtain ⟨x, hx, hFx⟩ := h3 hlt
    refine ⟨x, ?_, hFx⟩
    rw [List.getElem?_drop] at hx
    have e : From + (find_if_helper F (S.drop From) From - From) =
        find_if_helper F (S.drop From) From := by omega
    rw [e] at hx
    exact hx
  · intro j x hj1 hj2 hx
    refine h4 (j - From) x (by omega) ?_
    rw [List.getElem?_drop]
    have e : From + (j - From) = j := by omega
    rw [e]
    exact hx

/-- C12: for a start index `From <= S::size()`, `find<T, S, From>` has a `value`: the
least index `i >= From` at which `S` holds `T`, and `S::size()` when there is no
such index. -/
theorem find_least_index {α : Type} [DecidableEq α] (T : α) (S : List α) (From : Nat)
    (hFrom : From ≤ size S) :
    ∃ i, find T S From = some i ∧ From ≤ i ∧ i ≤ size S ∧
      (i < size S → S[i]? = some T) ∧
      (∀ j, From ≤ j → j < i → S[j]? ≠ some T) ∧
      ((∀ j, From ≤ j → S[j]? ≠ some T) → i = size S) := by
  obtain ⟨i, hi, h1, h2, h3, h4⟩ := find_if_spec (fun U => decide (T = U)) S From hFrom
  have hfind : find T S From = some i := by
    simp only [find_if, copy_to_end S From hFrom, Option.some_bind] at hi
    simp only [find, copy_to_end S From hFrom, Option.some_bind, find_helper_eq_find_if_helper]
    exact hi
  have h3b : i < size S → S[i]? = some T := by
    intro hlt
    obtain ⟨x, hx, hFx⟩ := h3 hlt
    have : T = x := by simpa using hFx
    rw [this]
    exact hx
  refine ⟨i, hfind, h1, h2, h3b, ?_, ?_⟩
  · intro j hj1 hj2 hj
    have := h4 j T hj1 hj2 hj
    simp at this
  · intro hnone
    by_contra hne
    exact hnone i h1 (h3b (by omega))

theorem find_least_index_witness :
    find 1 [0, 1, 2] 0 = some 1 ∧ find 3 [0, 1, 2] 0 = some 3 := by
  constructor
  · obtain ⟨i, hi, _, h2, h3, h4, _⟩ := find_least_index 1 [0, 1, 2] 0 (by decide)
    have h2b : i ≤ 3 := h2
    have e : i = 1 := by
      interval_cases i
      · exact absurd (h3 (by decide)) (by decide)
      · rfl
      · exact absurd (by decide) (h4 1 (by decide) (by decide))
      · exact absurd (by decide) (h4 1 (by decide) (by decide))
    rw [hi, e]
  · obtain ⟨i, hi, _, _, _, _, h5⟩ := find_least_index 3 [0, 1, 2] 0 (by decide)
    have e : i = 3 := by
      apply h5
      intro j _
      match j with
      | 0 => decide
      | 1 => decide
      | 2 => decide
      | k + 3 => simp
    rw [hi, e]

/-- C13: for a start index `From <= S::size()`, `find_if<P, S, From>` has a `value`:
the least index `i >= From` whose token satisfies `P`, and `S::size()` when no token
at or after `From` satisfies `P`. -/
theorem find_if_least_index {α : Type} (P : α → Bool) (S : List α) (From : Nat)
    (hFrom : From ≤ size S) :
    ∃ i, find_if P S From = some i ∧ From ≤ i ∧ i ≤ size S ∧
      (i < size S → ∃ x, S[i]? = some x ∧ P x = true) ∧
      (∀ j x, From ≤ j → j < i → S[j]? = some x → P x = false) ∧
      ((∀ j x, From ≤ j → S[j]? = some x → P x = false) → i = size S) := by
  obtain ⟨i, hi, h1, h2, h3, h4⟩ := find_if_spec P S From hFrom
  refine ⟨i, hi, h1, h2, h3, h4, ?_⟩
  intro hnone
  by_contra hne
  obtain ⟨x, hx, hPx⟩ := h3 (by omega)
  rw [hnone i x h1 hx] at hPx
  exact absurd hPx (by simp)

theorem find_if_least_index_witness :
    find_if isEven [1, 3, 4, 5, 6] 3 = some 4 := by
  obtain ⟨i, hi, h1, h2, h3, h4, _⟩ := find_if_least_index isEven [1, 3, 4, 5, 6] 3 (by decide)
  have h2b : i ≤ 5 := h2
  have e : i = 4 := by
    interval_cases i
    · obtain ⟨x, hx, hPx⟩ := h3 (by decide)
      simp only [List.getElem?_cons_succ, List.getElem?_cons_zero, Option.some.injEq] at hx
      subst hx
      exact absurd hPx (by decide)
    · rfl
    · exact absurd (h4 4 6 (by decide) (by decide) (by decide)) (by decide)
  rw [hi, e]

theorem contains_eq_find_helper {α : Type} [DecidableEq α] (T : α) :
    ∀ (l : List α) (Idx : Nat),
      contains T l = decide (find_helper T l Idx ≠ Idx + l.length) := by
  intro l
  induction l with
  | nil => intro Idx; simp [contains, find_helper]
  | cons U Us ih =>
    intro Idx
    by_cases h : T = U
    · simp [contains, find_helper, h]
    · simp only [contains, find_helper, if_neg h, ih (Idx + 1), List.length_cons]
      congr 1
      apply propext
      constructor <;> intro h1 h2 <;> apply h1 <;> omega

theorem contains_iff_mem {α : Type} [DecidableEq α] (T : α) (l : List α) :
    contains T l = true ↔ T ∈ l := by
  induction l with
  | nil => simp [contains]
  | cons U Us ih =>
    by_cases h : T = U
    · simp [contains, h]
    · simp [contains, h, ih]

/-- C14: `contains<T, S>` is `find<T, S>::value != S::size()`, and it holds exactly
when some token of `S` is `T`; on the empty pack it is `false`. -/
theorem contains_iff_found {α : Type} [DecidableEq α] (T : α) (S : List α) :
    (∃ i, find T S 0 = some i ∧ contains T S = decide (i ≠ size S)) ∧
    (contains T S = true ↔ ∃ x, x ∈ S ∧ x = T) ∧
    contains T (empty_pack : List α) = false := by
  refine ⟨⟨find_helper T S 0, ?_, ?_⟩, ?_, rfl⟩
  · simp [find, copy_to_end S 0 (Nat.zero_le _)]
  · rw [contains_eq_find_helper T S 0]
    simp [size]
  · rw [contains_iff_mem]
    simp

/-! ## remove, remove_if, remove_all_if, replace -/

theorem remove_of_not_mem {α : Type} [DecidableEq α] (T : α) :
    ∀ l : List α, T ∉ l → remove T l = l := by
  intro l
  induction l with
  | nil => intro _; rfl
  | cons U Us ih =>
    intro h
    have hne : T ≠ U := fun e => h (e ▸ List.mem_cons_self _ _)
    have hUs : T ∉ Us := fun hm => h (List.mem_cons_of_mem _ hm)
    simp [remove, hne, ih hUs]

theorem remove_append_cons {α : Type} [DecidableEq α] (T : α) (B : List α) :
    ∀ A : List α, T ∉ A → remove T (A ++ T :: B) = A ++ B := by
  intro A
  induction A with
  | nil => intro _; simp [remove]
  | cons U Us ih =>
    intro h
    have hne : T ≠ U := fun e => h (e ▸ List.mem_cons_self _ _)
    have hUs : T ∉ Us := fun hm => h (List.mem_cons_of_mem _ hm)
    simp [remove, hne, ih hUs]

/-- C15: `remove<T, S>` is `S` without its first `T` (the tokens before and after
it, later `T`s included, stay in order), and `S` itself when `T` is not in `S`. -/
theorem remove_first_occurrence {α : Type} [DecidableEq α] (T : α) (S : List α) :
    (T ∉ S → remove T S = S) ∧
    (∀ A B : List α, S = A ++ T :: B → T ∉ A → remove T S = A ++ B) := by
  refine ⟨remove_of_not_mem T S, ?_⟩
  intro A B hS hA
  rw [hS]
  exact remove_append_cons T B A hA

theorem remove_first_occurrence_witness :
    remove 1 [0, 1, 2, 1] = [0, 2, 1] ∧ remove 3 [0, 1, 2, 1] = [0, 1, 2, 1] :=
  ⟨(remove_first_occurrence 1 [0, 1, 2, 1]).2 [0] [2, 1] rfl (by decide),
   (remove_first_occurrence 3 [0, 1, 2, 1]).1 (by decide)⟩

/-- C16 (the code at the failing input): `remove_if` with the predicate of the even
numbers leaves the pack `{1, 2}` as it is, although `2` is even: only the head of
the pack is tested, the tail `type_pack<Ts...>` is concatenated unexamined. -/
theorem remove_if_tests_head_only :
    remove_if isEven [1, 2] = [1, 2] ∧ isEven 2 = true := by
  decide

theorem remove_all_if_eq_filter {α : Type} (F : α → Bool) (l : List α) :
    remove_all_if F l = l.filter (fun x => !F x) := by
  unfold remove_all_if
  induction l with
  | nil => rfl
  | cons T Ts ih =>
    by_cases h : F T = true
    · simp [remove_all_if_impl, h, ih]
    · simp [remove_all_if_impl, h, ih]

/-- C17: `remove_all<T, S>` keeps, in order, the tokens of `S` other than `T`, and
`remove_all_if<P, S>` keeps, in order, the tokens of `S` that do not satisfy `P`;
`remove_all_if` with the predicate of the even numbers on `{1,2,3,4,5,6}` is
`{1,3,5}`. -/
theorem remove_all_keeps_the_rest :
    (∀ (α : Type) [DecidableEq α] (T : α) (P : α → Bool) (S : List α),
      remove_all T S = S.filter (fun x => decide (x ≠ T)) ∧
      remove_all_if P S = S.filter (fun x => !P x)) ∧
    remove_all_if isEven [1, 2, 3, 4, 5, 6] = [1, 3, 5] := by
  refine ⟨?_, by decide⟩
  intro α _ T P S
  refine ⟨?_, remove_all_if_eq_filter P S⟩
  rw [remove_all_eq_filter]
  congr 1
  funext x
  by_cases h : T = x
  · simp [h]
  · have h2 : x ≠ T := fun e => h e.symm
    simp [h, h2]

/-- C18: `replace<Old, New, S>` is `transform` of `S` by the mapping that sends `Old`
to `New` and every other token to itself: it has the size of `S`, and at each
position `New` where `S` holds `Old` and the token of `S` elsewhere. -/
theorem replace_is_transform {α : Type} [DecidableEq α] (Old New : α) (S : List α) :
    replace Old New S = transform (fun x => if x = Old then New else x) S ∧
    size (replace Old New S) = size S ∧
    (∀ (i : Nat) (x : α), S[i]? = some x →
      (replace Old New S)[i]? = some (if x = Old then New else x)) := by
  refine ⟨rfl, ?_, ?_⟩
  · simp [replace, transform, size]
  · intro i x hx
    simp [replace, transform, rep_one_element, hx]

theorem replace_is_transform_witness :
    [0, 1, 2, 1][3]? = some 1 ∧ (replace 1 9 [0, 1, 2, 1])[3]? = some 9 :=
  ⟨by decide, (replace_is_transform 1 9 [0, 1, 2, 1]).2.2 3 1 (by decide)⟩

/-! ## lexicographical_compare -/

theorem lexicographical_compare_impl_spec {α : Type} (Less : α → α → Bool)
    (hasym : ∀ a b, Less a b = true → Less b a = false) :
    ∀ A B : List α, ∃ v, lexicographical_compare_impl Less A B = some v ∧
      (∀ (i : Nat) (a b : α), A[i]? = some a → B[i]? = some b →
        (∀ (j : Nat) (a2 b2 : α), j < i → A[j]? = some a2 → B[j]? = some b2 →
          Less a2 b2 = false ∧ Less b2 a2 = false) →
        ¬ (Less a b = false ∧ Less b a = false) →
        (Less a b = true → v = true) ∧ (Less b a = true → v = false)) ∧
      ((∀ (i : Nat) (a b : α), A[i]? = some a → B[i]? = some b →
          Less a b = false ∧ Less b a = false) →
        v = decide (A.length < B.length)) := by
  intro A
  induction A with
  | nil =>
    intro B
    cases B with
    | nil => exact ⟨false, rfl, by simp, by simp⟩
    | cons U Us => exact ⟨true, rfl, by simp, by simp⟩
  | cons T Ts ih =>
    intro B
    cases B with
    | nil => exact ⟨false, rfl, by simp, by simp⟩
    | cons U Us =>
      by_cases heq : Less T U = false ∧ Less U T = false
      · obtain ⟨v, hv, h1, h2⟩ := ih Us
        refine ⟨v, ?_, ?_, ?_⟩
        · simp [lexicographical_compare_impl, heq.1, heq.2, hv]
        · intro i a b ha hb hpre hne
          cases i with
          | zero =>
            simp only [List.getElem?_cons_zero, Option.some.injEq] at ha hb
            subst ha hb
            exact absurd heq hne
          | succ k =>
            rw [List.getElem?_cons_succ] at ha hb
            refine h1 k a b ha hb ?_ hne
            intro j a2 b2 hj ha2 hb2
            exact hpre (j + 1) a2 b2 (by omega)
              (by rw [List.getElem?_cons_succ]; exact ha2)
              (by rw [List.getElem?_cons_succ]; exact hb2)
        · intro hall
          have := h2 (fun i a b ha hb => hall (i + 1) a b
            (by rw [List.getElem?_cons_succ]; exact ha)
            (by rw [List.getElem?_cons_succ]; exact hb))
          rw [this]
          simp
      · have hdec : ∀ (i : Nat) (a b : α), (T :: Ts)[i]? = some a → (U :: Us)[i]? = some b →
            (∀ (j : Nat) (a2 b2 : α), j < i → (T :: Ts)[j]? = some a2 →
              (U :: Us)[j]? = some b2 → Less a2 b2 = false ∧ Less b2 a2 = false) →
            a = T ∧ b = U := by
          intro i a b ha hb hpre
          cases i with
          | zero =>
            simp only [List.getElem?_cons_zero, Option.some.injEq] at ha hb
            exact ⟨ha.symm, hb.symm⟩
          | succ k =>
            exact absurd (hpre 0 T U (by omega) List.getElem?_cons_zero List.getElem?_cons_zero) heq
        cases hTU : Less T U
        · have hUT : Less U T = true := by
            cases h : Less U T
            · exact absurd ⟨hTU, h⟩ heq
            · rfl
          refine ⟨false, ?_, ?_, ?_⟩
          · simp [lexicographical_compare_impl, hTU, hUT]
          · intro i a b ha hb hpre _
            obtain ⟨rfl, rfl⟩ := hdec i a b ha hb hpre
            exact ⟨fun h => by rw [hTU] at h; exact absurd h (by simp), fun _ => rfl⟩
          · intro hall
            exact absurd (hall 0 T U List.getElem?_cons_zero List.getElem?_cons_zero) heq
        · have hUT : Less U T = false := hasym T U hTU
          refine ⟨true, ?_, ?_, ?_⟩
          · simp [lexicographical_compare_impl, hTU, hUT]
          · intro i a b ha hb hpre _
            obtain ⟨rfl, rfl⟩ := hdec i a b ha hb hpre
            exact ⟨fun _ => rfl, fun h => by rw [hUT] at h; exact absurd h (by simp)⟩
          · intro hall
            exact absurd (hall 0 T U List.getElem?_cons_zero List.getElem?_cons_zero) heq

/-- C19: for an asymmetric `Less`, `lexicographical_compare<A, B, Less>` has a
`value`, decided at the first position whose two tokens are not equivalent under
`Less` (`true` if the token of `A` is less, `false` if the token of `B` is less);
when the tokens are equivalent at every common position, it is `true` exactly when
`A` is shorter than `B`. -/
theorem lexicographical_compare_first_mismatch {α : Type} (Less : α → α → Bool)
    (hasym : ∀ a b, Less a b = true → Less b a = false) (A B : List α) :
    ∃ v, lexicographical_compare A B Less = some v ∧
      (∀ (i : Nat) (a b : α), A[i]? = some a → B[i]? = some b →
        (∀ (j : Nat) (a2 b2 : α), j < i → A[j]? = some a2 → B[j]? = some b2 →
          Less a2 b2 = false ∧ Less b2 a2 = false) →
        ¬ (Less a b = false ∧ Less b a = false) →
        (Less a b = true → v = true) ∧ (Less b a = true → v = false)) ∧
      ((∀ (i : Nat) (a b : α), A[i]? = some a → B[i]? = some b →
          Less a b = false ∧ Less b a = false) →
        v = decide (size A < size B)) :=
  lexicographical_compare_impl_spec Less hasym A B

theorem natLess_asymm (a b : Nat) (h : natLess a b = true) : natLess b a = false := by
  simp only [natLess, decide_eq_true_eq, decide_eq_false_iff_not] at *
  omega

theorem lexicographical_compare_first_mismatch_witness :
    lexicographical_compare [0] [0, 1] natLess = some true ∧
    lexicographical_compare ([] : List Nat) [] natLess = some false ∧
    lexicographical_compare [0, 2, 1] [0, 1, 5] natLess = some false := by
  refine ⟨?_, ?_, ?_⟩
  · obtain ⟨v, hv, _, h2⟩ := lexicographical_compare_first_mismatch natLess natLess_asymm [0] [0, 1]
    have e : v = true := by
      rw [h2]
      · decide
      · intro i a b ha hb
        match i with
        | 0 =>
          simp only [List.getElem?_cons_zero, Option.some.injEq] at ha hb
          subst ha hb
          decide
        | k + 1 => simp at ha
    rw [hv, e]
  · obtain ⟨v, hv, _, h2⟩ := lexicographical_compare_first_mismatch natLess natLess_asymm [] []
    have e : v = false := by
      rw [h2]
      · decide
      · intro i a b ha hb
        simp at ha
    rw [hv, e]
  · obtain ⟨v, hv, h1, _⟩ :=
      lexicographical_compare_first_mismatch natLess natLess_asymm [0, 2, 1] [0, 1, 5]
    have e : v = false := by
      refine (h1 1 2 1 (by decide) (by decide) ?_ (by decide)).2 (by decide)
      intro j a2 b2 hj ha2 hb2
      have hj0 : j = 0 := by omega
      subst hj0
      simp only [List.getElem?_cons_zero, Option.some.injEq] at ha2 hb2
      subst ha2 hb2
      decide
    rw [hv, e]

/-! ## max -/

theorem swo_neg_trans {α : Type} (Less : α → α → Bool) (h : StrictWeakOrder Less)
    (a b c : α) (hac : Less a c = true) : Less a b = true ∨ Less b c = true := by
  cases hab : Less a b
  · cases hbc : Less b c
    · exfalso
      have hba : Less b a = false := by
        cases hba : Less b a
        · rfl
        · have := h.trans b a c hba hac
          rw [hbc] at this
          exact absurd this (by simp)
      have hcb : Less c b = false := by
        cases hcb : Less c b
        · rfl
        · have := h.trans a c b hac hcb
          rw [hab] at this
          exact absurd this (by simp)
      have := (h.incomp_trans a b c hab hba hbc hcb).1
      rw [hac] at this
      exact absurd this (by simp)
    · exact Or.inr rfl
  · exact Or.inl rfl

theorem max_impl_eq_foldl {α : Type} [DecidableEq α] (empty_type : α)
    (Less : α → α → Bool) :
    ∀ (l : List α) (CurMax : α), max_impl empty_type Less l CurMax =
      l.foldl (fun m x => if m = empty_type then x else if Less m x then x else m) CurMax := by
  intro l
  induction l with
  | nil => intro CurMax; rfl
  | cons T Ts ih =>
    intro CurMax
    by_cases h : CurMax = empty_type
    · simp [max_impl, h, ih]
    · simp [max_impl, h, ih]

theorem foldl_marker_free {α : Type} [DecidableEq α] (empty_type : α)
    (Less : α → α → Bool) :
    ∀ (l : List α) (m : α), m ≠ empty_type → (∀ x ∈ l, x ≠ empty_type) →
      l.foldl (fun m x => if m = empty_type then x else if Less m x then x else m) m =
        l.foldl (fun m x => if Less m x then x else m) m := by
  intro l
  induction l with
  | nil => intro m _ _; rfl
  | cons T Ts ih =>
    intro m hm hl
    have hT : T ≠ empty_type := hl T (List.mem_cons_self _ _)
    have hTs : ∀ x ∈ Ts, x ≠ empty_type := fun x hx => hl x (List.mem_cons_of_mem _ hx)
    simp only [List.foldl_cons, if_neg hm]
    by_cases h : Less m T = true
    · simp only [if_pos h]
      exact ih T hT hTs
    · simp only [if_neg h]
      exact ih m hm hTs

theorem max_t_cons_eq_foldl {α : Type} [DecidableEq α] (empty_type : α)
    (Less : α → α → Bool) (T : α) (Ts : List α) (h : ∀ x ∈ T :: Ts, x ≠ empty_type) :
    max_t empty_type (T :: Ts) Less = Ts.foldl (fun m x => if Less m x then x else m) T := by
  have hT : T ≠ empty_type := h T (List.mem_cons_self _ _)
  have hTs : ∀ x ∈ Ts, x ≠ empty_type := fun x hx => h x (List.mem_cons_of_mem _ hx)
  rw [max_t, max_impl, if_pos rfl, max_impl_eq_foldl]
  exact foldl_marker_free empty_type Less Ts T hT hTs

theorem foldl_max_spec {α : Type} (Less : α → α → Bool) (h : StrictWeakOrder Less) :
    ∀ (l : List α) (m0 : α),
      (∀ x ∈ m0 :: l, Less (l.foldl (fun m x => if Less m x then x else m) m0) x = false) ∧
      ∃ i : Nat, (m0 :: l)[i]? = some (l.foldl (fun m x => if Less m x then x else m) m0) ∧
        ∀ (j : Nat) (y : α), j < i → (m0 :: l)[j]? = some y →
          Less y (l.foldl (fun m x => if Less m x then x else m) m0) = true := by
  intro l
  induction l with
  | nil =>
    intro m0
    refine ⟨?_, 0, rfl, ?_⟩
    · intro x hx
      simp only [List.mem_singleton] at hx
      subst hx
      exact h.irrefl _
    · intro j y hj
      omega
  | cons x l ih =>
    intro m0
    rw [List.foldl_cons]
    by_cases hx : Less m0 x = true
    · rw [if_pos hx]
      obtain ⟨hmax, i, hi, hearly⟩ := ih x
      generalize l.foldl (fun m x => if Less m x then x else m) x = r at hmax hi hearly
      have hrx : Less r x = false := hmax x (List.mem_cons_self _ _)
      have hm0r : Less m0 r = true := by
        cases i with
        | zero =>
          simp only [List.getElem?_cons_zero, Option.some.injEq] at hi
          rw [← hi]
          exact hx
        | succ k =>
          exact h.trans m0 x r hx (hearly 0 x (by omega) List.getElem?_cons_zero)
      refine ⟨?_, i + 1, ?_, ?_⟩
      · intro y hy
        rcases List.mem_cons.mp hy with rfl | hy
        · cases hry : Less r y
          · rfl
          · have := h.trans r y x hry hx
            rw [hrx] at this
            exact absurd this (by simp)
        · exact hmax y hy
      · rw [List.getElem?_cons_succ]
        exact hi
      · intro j y hj hy
        cases j with
        | zero =>
          simp only [List.getElem?_cons_zero, Option.some.injEq] at hy
          rw [← hy]
          exact hm0r
        | succ k =>
          rw [List.getElem?_cons_succ] at hy
          exact hearly k y (by omega) hy
    · rw [if_neg hx]
      have hx2 : Less m0 x = false := by simpa using hx
      obtain ⟨hmax, i, hi, hearly⟩ := ih m0
      generalize l.foldl (fun m x => if Less m x then x else m) m0 = r at hmax hi hearly
      cases i with
      | zero =>
        simp only [List.getElem?_cons_zero, Option.some.injEq] at hi
        subst hi
        refine ⟨?_, 0, List.getElem?_cons_zero, ?_⟩
        · intro y hy
          rcases List.mem_cons.mp hy with rfl | hy
          · exact hmax _ (List.mem_cons_self _ _)
          · rcases List.mem_cons.mp hy with rfl | hy
            · exact hx2
            · exact hmax y (List.mem_cons_of_mem _ hy)
        · intro j y hj
          omega
      | succ k =>
        rw [List.getElem?_cons_succ] at hi
        have hm0r : Less m0 r = true := hearly 0 m0 (by omega) List.getElem?_cons_zero
        refine ⟨?_, k + 2, ?_, ?_⟩
        · intro y hy
          rcases List.mem_cons.mp hy with rfl | hy
          · exact hmax _ (List.mem_cons_self _ _)
          · rcases List.mem_cons.mp hy with rfl | hy
            · cases hry : Less r y
              · rfl
              · have := h.trans m0 r y hm0r hry
                rw [hx2] at this
                exact absurd this (by simp)
            · exact hmax y (List.mem_cons_of_mem _ hy)
        · rw [List.getElem?_cons_succ, List.getElem?_cons_succ]
          exact hi
        · intro j y hj hy
          match j, hj, hy with
          | 0, _, hy =>
            simp only [List.getElem?_cons_zero, Option.some.injEq] at hy
            rw [← hy]
            exact hm0r
          | 1, _, hy =>
            simp only [List.getElem?_cons_succ, List.getElem?_cons_zero,
              Option.some.injEq] at hy
            rw [← hy]
            rcases swo_neg_trans Less h m0 x r hm0r with h1 | h1
            · rw [hx2] at h1
              exact absurd h1 (by simp)
            · exact h1
          | j2 + 2, hj, hy =>
            rw [List.getElem?_cons_succ, List.getElem?_cons_succ] at hy
            exact hearly (j2 + 1) y (by omega) (by rw [List.getElem?_cons_succ]; exact hy)

/-- C20 (as stated, refuted): take `empty_type` to be the token `0` of the naturals
and `Less` the reversed order; on the pack `{0, 1}` the left fold that replaces the
running maximum `m` by `x` exactly when `Less<m, x>` keeps `0`, and `max_t` is `1`:
a running maximum that is `empty_type` is replaced without asking `Less`. -/
theorem max_t_marker_in_pack :
    max_t 0 [0, 1] natMore = 1 ∧
    [1].foldl (fun m x => if natMore m x then x else m) 0 = 0 := by
  decide

/-- C20 (amended): `max_t` of the empty pack is `empty_type`; for every comparator
and every non-empty pack none of whose tokens is `empty_type`, it is the left fold
over the tokens after the first, seeded with the first, that replaces the running
maximum `m` by the next token `x` exactly when `Less<m, x>`; and for a strict weak
order the result is then a token that no token of the pack exceeds, at a position
before which every token is less than it (the earliest of the equivalent maximal
tokens). -/
theorem max_t_left_fold {α : Type} [DecidableEq α] (empty_type : α)
    (Less : α → α → Bool) :
    max_t empty_type empty_pack Less = empty_type ∧
    (∀ (T : α) (Ts : List α), (∀ x ∈ T :: Ts, x ≠ empty_type) →
      max_t empty_type (T :: Ts) Less =
        Ts.foldl (fun m x => if Less m x then x else m) T) ∧
    (StrictWeakOrder Less → ∀ (T : α) (Ts : List α), (∀ x ∈ T :: Ts, x ≠ empty_type) →
      (∀ x ∈ T :: Ts, Less (max_t empty_type (T :: Ts) Less) x = false) ∧
      ∃ i : Nat, (T :: Ts)[i]? = some (max_t empty_type (T :: Ts) Less) ∧
        ∀ (j : Nat) (y : α), j < i → (T :: Ts)[j]? = some y →
          Less y (max_t empty_type (T :: Ts) Less) = true) := by
  refine ⟨rfl, max_t_cons_eq_foldl empty_type Less, ?_⟩
  intro hswo T Ts hno
  rw [max_t_cons_eq_foldl empty_type Less T Ts hno]
  exact foldl_max_spec Less hswo Ts T

theorem max_t_left_fold_witness :
    max_t 0 [2, 5, 3, 5] natLess = [5, 3, 5].foldl (fun m x => if natLess m x then x else m) 2 ∧
    ∃ i : Nat, [2, 5, 3, 5][i]? = some (max_t 0 [2, 5, 3, 5] natLess) ∧
      ∀ (j : Nat) (y : Nat), j < i → [2, 5, 3, 5][j]? = some y →
        natLess y (max_t 0 [2, 5, 3, 5] natLess) = true :=
  ⟨(max_t_left_fold 0 natLess).2.1 2 [5, 3, 5] (by decide),
   ((max_t_left_fold 0 natLess).2.2 natLess_swo 2 [5, 3, 5] (by decide)).2⟩

/-! ## min -/

theorem byTens_swo : StrictWeakOrder byTens where
  irrefl := by intro a; simp [byTens]
  trans := by
    intro a b c h1 h2
    simp only [byTens, decide_eq_true_eq] at *
    omega
  incomp_trans := by
    intro a b c h1 h2 h3 h4
    simp only [byTens, decide_eq_false_iff_not, decide_eq_true_eq] at *
    omega

theorem min_impl_eq_foldl {α : Type} [DecidableEq α] (empty_type : α)
    (Less : α → α → Bool) :
    ∀ (l : List α) (CurMin : α), min_impl empty_type Less l CurMin =
      l.foldl (fun m x => if m = empty_type then x else if Less m x then m else x) CurMin := by
  intro l
  induction l with
  | nil => intro CurMin; rfl
  | cons T Ts ih =>
    intro CurMin
    by_cases h : CurMin = empty_type
    · simp [min_impl, h, ih]
    · simp [min_impl, h, ih]

theorem foldl_marker_free_min {α : Type} [DecidableEq α] (empty_type : α)
    (Less : α → α → Bool) :
    ∀ (l : List α) (m : α), m ≠ empty_type → (∀ x ∈ l, x ≠ empty_type) →
      l.foldl (fun m x => if m = empty_type then x else if Less m x then m else x) m =
        l.foldl (fun m x => if Less m x then m else x) m := by
  intro l
  induction l with
  | nil => intro m _ _; rfl
  | cons T Ts ih =>
    intro m hm hl
    have hT : T ≠ empty_type := hl T (List.mem_cons_self _ _)
    have hTs : ∀ x ∈ Ts, x ≠ empty_type := fun x hx => hl x (List.mem_cons_of_mem _ hx)
    simp only [List.foldl_cons, if_neg hm]
    by_cases h : Less m T = true
    · simp only [if_pos h]
      exact ih m hm hTs
    · simp only [if_neg h]
      exact ih T hT hTs

theorem min_t_cons_eq_foldl {α : Type} [DecidableEq α] (empty_type : α)
    (Less : α → α → Bool) (T : α) (Ts : List α) (h : ∀ x ∈ T :: Ts, x ≠ empty_type) :
    min_t empty_type (T :: Ts) Less = Ts.foldl (fun m x => if Less m x then m else x) T := by
  have hT : T ≠ empty_type := h T (List.mem_cons_self _ _)
  have hTs : ∀ x ∈ Ts, x ≠ empty_type := fun x hx => h x (List.mem_cons_of_mem _ hx)
  rw [min_t, min_impl, if_pos rfl, min_impl_eq_foldl]
  exact foldl_marker_free_min empty_type Less Ts T hT hTs

theorem foldl_min_spec {α : Type} (Less : α → α → Bool) (h : StrictWeakOrder Less) :
    ∀ (l : List α) (m0 : α),
      (∀ x ∈ m0 :: l, Less x (l.foldl (fun m x => if Less m x then m else x) m0) = false) ∧
      ∃ i : Nat, (m0 :: l)[i]? = some (l.foldl (fun m x => if Less m x then m else x) m0) ∧
        ∀ (j : Nat) (y : α), i < j → (m0 :: l)[j]? = some y →
          Less (l.foldl (fun m x => if Less m x then m else x) m0) y = true := by
  intro l
  induction l with
  | nil =>
    intro m0
    refine ⟨?_, 0, rfl, ?_⟩
    · intro x hx
      simp only [List.mem_singleton] at hx
      subst hx
      exact h.irrefl _
    · intro j y hj hy
      cases j with
      | zero => omega
      | succ k => simp at hy
  | cons x l ih =>
    intro m0
    rw [List.foldl_cons]
    by_cases hx : Less m0 x = true
    · rw [if_pos hx]
      obtain ⟨hmin, i, hi, hlate⟩ := ih m0
      generalize l.foldl (fun m x => if Less m x then m else x) m0 = r at hmin hi hlate
      have hm0r : Less m0 r = false := hmin m0 (List.mem_cons_self _ _)
      have hxr : Less x r = false := by
        cases hxr : Less x r
        · rfl
        · have := h.trans m0 x r hx hxr
          rw [hm0r] at this
          exact absurd this (by simp)
      have hmin2 : ∀ y ∈ m0 :: x :: l, Less y r = false := by
        intro y hy
        rcases List.mem_cons.mp hy with rfl | hy
        · exact hm0r
        · rcases List.mem_cons.mp hy with rfl | hy
          · exact hxr
          · exact hmin y (List.mem_cons_of_mem _ hy)
      cases i with
      | zero =>
        simp only [List.getElem?_cons_zero, Option.some.injEq] at hi
        subst hi
        refine ⟨hmin2, 0, List.getElem?_cons_zero, ?_⟩
        intro j y hj hy
        match j, hj, hy with
        | 1, _, hy =>
          simp only [List.getElem?_cons_succ, List.getElem?_cons_zero,
            Option.some.injEq] at hy
          rw [← hy]
          exact hx
        | j2 + 2, _, hy =>
          rw [List.getElem?_cons_succ, List.getElem?_cons_succ] at hy
          exact hlate (j2 + 1) y (by omega) (by rw [List.getElem?_cons_succ]; exact hy)
      | succ k =>
        rw [List.getElem?_cons_succ] at hi
        refine ⟨hmin2, k + 2, ?_, ?_⟩
        · rw [List.getElem?_cons_succ, List.getElem?_cons_succ]
          exact hi
        · intro j y hj hy
          match j, hj, hy with
          | j2 + 2, hj, hy =>
            rw [List.getElem?_cons_succ, List.getElem?_cons_succ] at hy
            exact hlate (j2 + 1) y (by omega) (by rw [List.getElem?_cons_succ]; exact hy)
    · rw [if_neg hx]
      have hx2 : Less m0 x = false := by simpa using hx
      obtain ⟨hmin, i, hi, hlate⟩ := ih x
      generalize l.foldl (fun m x => if Less m x then m else x) x = r at hmin hi hlate
      have hxr : Less x r = false := hmin x (List.mem_cons_self _ _)
      refine ⟨?_, i + 1, ?_, ?_⟩
      · intro y hy
        rcases List.mem_cons.mp hy with rfl | hy
        · cases hyr : Less y r
          · rfl
          · rcases swo_neg_trans Less h y x r hyr with h1 | h1
            · rw [hx2] at h1
              exact absurd h1 (by simp)
            · rw [hxr] at h1
              exact absurd h1 (by simp)
        · exact hmin y hy
      · rw [List.getElem?_cons_succ]
        exact hi
      · intro j y hj hy
        match j, hj, hy with
        | j2 + 1, hj, hy =>
          rw [List.getElem?_cons_succ] at hy
          exact hlate j2 y (by omega) hy

/-- C21 (as stated, refuted): with `empty_type` taken as the token `0` of the
naturals, the left fold that replaces the running minimum `m` by `x` exactly when
`Less<x, m>` keeps `10` on the pack `{10, 11}` compared by tens, and `min_t` is `11`:
the running minimum is replaced whenever `Less<m, x>` fails, equivalent tokens
included; and on `{0, 1}` under the order of the naturals the fold keeps `0`, and
`min_t` is `1`: a running minimum that is `empty_type` is replaced without asking
`Less`. -/
theorem min_t_replaces_on_ties :
    (min_t 0 [10, 11] byTens = 11 ∧
      [11].foldl (fun m x => if byTens x m then x else m) 10 = 10) ∧
    (min_t 0 [0, 1] natLess = 1 ∧
      [1].foldl (fun m x => if natLess x m then x else m) 0 = 0) := by
  decide

/-- C21 (amended): `min_t` of the empty pack is `empty_type`; for every comparator
and every non-empty pack none of whose tokens is `empty_type`, it is the left fold
over the tokens after the first, seeded with the first, that keeps the running
minimum `m` exactly when `Less<m, x>` and replaces it by the next token `x`
otherwise; and for a strict weak order the result is then a token that no token
of the pack is less than, at a position after which every token is greater than it
(the latest of the equivalent minimal tokens). -/
theorem min_t_left_fold {α : Type} [DecidableEq α] (empty_type : α)
    (Less : α → α → Bool) :
    min_t empty_type empty_pack Less = empty_type ∧
    (∀ (T : α) (Ts : List α), (∀ x ∈ T :: Ts, x ≠ empty_type) →
      min_t empty_type (T :: Ts) Less =
        Ts.foldl (fun m x => if Less m x then m else x) T) ∧
    (StrictWeakOrder Less → ∀ (T : α) (Ts : List α), (∀ x ∈ T :: Ts, x ≠ empty_type) →
      (∀ x ∈ T :: Ts, Less x (min_t empty_type (T :: Ts) Less) = false) ∧
      ∃ i : Nat, (T :: Ts)[i]? = some (min_t empty_type (T :: Ts) Less) ∧
        ∀ (j : Nat) (y : α), i < j → (T :: Ts)[j]? = some y →
          Less (min_t empty_type (T :: Ts) Less) y = true) := by
  refine ⟨rfl, min_t_cons_eq_foldl empty_type Less, ?_⟩
  intro hswo T Ts hno
  rw [min_t_cons_eq_foldl empty_type Less T Ts hno]
  exact foldl_min_spec Less hswo Ts T

theorem min_t_left_fold_witness :
    min_t 0 [25, 10, 31, 11] byTens =
      [10, 31, 11].foldl (fun m x => if byTens m x then m else x) 25 ∧
    (∀ x ∈ [25, 10, 31, 11], byTens x (min_t 0 [25, 10, 31, 11] byTens) = false) ∧
    min_t 0 [25, 10, 31, 11] byTens = 11 :=
  ⟨(min_t_left_fold 0 byTens).2.1 25 [10, 31, 11] (by decide),
   ((min_t_left_fold 0 byTens).2.2 byTens_swo 25 [10, 31, 11] (by decide)).1,
   by decide⟩

/-! ## count, count_if, all_of, any_of, none_of -/

theorem count_impl_eq {α : Type} [DecidableEq α] (T : α) :
    ∀ (l : List α) (Count : Nat), count_impl T Count l = Count + l.count T := by
  intro l
  induction l with
  | nil => intro Count; simp [count_impl]
  | cons U Us ih =>
    intro Count
    by_cases h : T = U
    · subst h
      rw [count_impl, if_pos rfl, ih, List.count_cons_self]
      omega
    · have h2 : (U == T) = false := by simpa using fun e : U = T => h e.symm
      rw [count_impl, if_neg h, ih, List.count_cons, h2]
      simp

theorem count_if_impl_eq {α : Type} (F : α → Bool) :
    ∀ (l : List α) (Count : Nat), count_if_impl F Count l = Count + l.countP F := by
  intro l
  induction l with
  | nil => intro Count; simp [count_if_impl]
  | cons T Ts ih =>
    intro Count
    by_cases h : F T = true
    · simp only [count_if_impl, if_pos h, ih, List.countP_cons_of_pos _ _ h]
      omega
    · simp only [count_if_impl, if_neg h, ih, List.countP_cons_of_neg _ _ h]

/-- C22: `count<T, S>` is the number of positions of `S` that hold `T`, and
`count_if<P, S>` the number of positions whose token satisfies `P`; both are `0` on
the empty pack. -/
theorem count_is_number_of_positions {α : Type} [DecidableEq α] (T : α) (P : α → Bool)
    (S : List α) :
    count T S = S.count T ∧
    count T S = ((List.range (size S)).filter (fun i => decide (S[i]? = some T))).length ∧
    count_if P S = S.countP P ∧
    count_if P S = ((List.range (size S)).filter (fun i => (S[i]?.map P).getD false)).length ∧
    count T (empty_pack : List α) = 0 ∧
    count_if P (empty_pack : List α) = 0 := by
  have hpos : ∀ (Q : α → Bool) (l : List α),
      l.countP Q = ((List.range l.length).filter (fun i => (l[i]?.map Q).getD false)).length := by
    intro Q l
    induction l with
    | nil => rfl
    | cons a l ih =>
      have e : (fun i => ((a :: l)[i]?.map Q).getD false) ∘ Nat.succ =
          fun i => (l[i]?.map Q).getD false := by
        funext i
        simp
      by_cases h : Q a = true
      · rw [List.countP_cons_of_pos _ _ h, List.length_cons, List.range_succ_eq_map,
          List.filter_cons_of_pos (by simp [h]), List.length_cons, List.filter_map,
          List.length_map, e, ← ih]
      · rw [List.countP_cons_of_neg _ _ h, List.length_cons, List.range_succ_eq_map,
          List.filter_cons_of_neg (by simp [h]), List.filter_map,
          List.length_map, e, ← ih]
  have hc : count T S = S.count T := by simp [count, count_impl_eq]
  have hci : count_if P S = S.countP P := by simp [count_if, count_if_impl_eq]
  refine ⟨hc, ?_, hci, ?_, rfl, rfl⟩
  · rw [hc, List.count, hpos]
    congr 1
    apply List.filter_congr
    intro i _
    cases h : S[i]? with
    | none => simp
    | some x =>
      by_cases hx : x = T <;> simp [hx]
  · rw [hci, hpos]
    rfl

theorem all_of_eq_all {α : Type} (F : α → Bool) (l : List α) : all_of F l = l.all F := by
  induction l with
  | nil => rfl
  | cons T Ts ih => simp [all_of, ih]

theorem any_of_eq_any {α : Type} (F : α → Bool) (l : List α) : any_of F l = l.any F := by
  induction l with
  | nil => rfl
  | cons T Ts ih => simp [any_of, ih]

/-- C23: `all_of<P, S>` holds exactly when every token of `S` satisfies `P`,
`any_of<P, S>` exactly when some token does, and `none_of<P, S>` is the negation of
`any_of<P, S>`; on the empty pack `all_of` and `none_of` are `true` and `any_of` is
`false`. -/
theorem quantifiers_over_pack {α : Type} (P : α → Bool) (S : List α) :
    (all_of P S = true ↔ ∀ x ∈ S, P x = true) ∧
    (any_of P S = true ↔ ∃ x ∈ S, P x = true) ∧
    none_of P S = !any_of P S ∧
    (none_of P S = true ↔ ∀ x ∈ S, P x = false) ∧
    all_of P (empty_pack : List α) = true ∧
    none_of P (empty_pack : List α) = true ∧
    any_of P (empty_pack : List α) = false := by
  refine ⟨?_, ?_, rfl, ?_, rfl, rfl, rfl⟩
  · rw [all_of_eq_all]
    simp
  · rw [any_of_eq_any]
    simp
  · simp [none_of, any_of_eq_any]

/-! ## is_equal, head, tail -/

/-- C24: for two packs, `is_equal` holds exactly when they have the same size and
hold the same token at every position, and `is_not_equal` is its negation. -/
theorem is_equal_packs {α : Type} [DecidableEq α] (A B : List α) :
    (is_equal (.pack A) (.pack B) = true ↔
      (size A = size B ∧ ∀ (i : Nat), i < size A → A[i]? = B[i]?)) ∧
    is_not_equal (.pack A) (.pack B) = !is_equal (.pack A) (.pack B) := by
  refine ⟨?_, rfl⟩
  simp only [is_equal, decide_eq_true_eq, size]
  constructor
  · intro h
    subst h
    exact ⟨rfl, fun _ _ => rfl⟩
  · rintro ⟨hlen, h⟩
    apply List.ext_getElem?
    intro i
    by_cases hi : i < A.length
    · exact h i hi
    · rw [List.getElem?_eq_none (Nat.le_of_not_lt hi),
        List.getElem?_eq_none (by omega)]

theorem is_equal_packs_witness :
    is_equal (Operand.pack [1, 2]) (.pack [1, 2]) = true ∧
    is_not_equal (Operand.pack [1, 2]) (.pack [2, 1]) = true :=
  ⟨(is_equal_packs [1, 2] [1, 2]).1.2 ⟨rfl, fun _ _ => rfl⟩, by
    rw [(is_equal_packs [1, 2] [2, 1]).2]
    decide⟩

/-- C25 (the code at the failing input): `is_equal<just_type<T>, type_pack<T>>` is
`true`, and `is_equal<type_pack<T>, just_type<T>>` is `false`: there is no
specialisation for a pack on the left and a `just_type` on the right, so the primary
template `std::false_type` is taken. -/
theorem is_equal_pack_just_false {α : Type} [DecidableEq α] (T : α) :
    is_equal (.just T) (.pack [T]) = true ∧ is_equal (.pack [T]) (.just T) = false := by
  simp [is_equal]

/-- C26 (as stated, refuted): comparing the pack `{0, 1}` with `just_type<0>`, in
either order, evaluates to `false`; `is_equal` has a `value` for every two
operands. -/
theorem is_equal_long_pack_is_false :
    is_equal (Operand.just 0) (.pack [0, 1]) = false ∧
    is_equal (Operand.pack [0, 1]) (.just 0) = false := by
  decide

/-- C26 (amended): comparing a pack of two or more tokens with a `just_type`, in
either order, is not rejected: `is_equal` evaluates to `false` and `is_not_equal`
to `true`. -/
theorem is_equal_long_pack_just {α : Type} [DecidableEq α] (T : α) (S : List α)
    (hS : 2 ≤ size S) :
    is_equal (.just T) (.pack S) = false ∧ is_equal (.pack S) (.just T) = false ∧
    is_not_equal (.just T) (.pack S) = true ∧ is_not_equal (.pack S) (.just T) = true := by
  have h : S ≠ [T] := by
    intro e
    subst e
    simp [size] at hS
  simp [is_equal, is_not_equal, h]

theorem is_equal_long_pack_just_witness :
    2 ≤ size [3, 4, 5] ∧
    (is_equal (Operand.just 3) (.pack [3, 4, 5]) = false ∧
      is_equal (Operand.pack [3, 4, 5]) (.just 3) = false ∧
      is_not_equal (Operand.just 3) (.pack [3, 4, 5]) = true ∧
      is_not_equal (Operand.pack [3, 4, 5]) (.just 3) = true) :=
  ⟨by decide, is_equal_long_pack_just 3 [3, 4, 5] (by decide)⟩

/-- C27: `head` and `tail` have no member `type` on the empty pack, and on a
non-empty pack they give the first token and the pack of the other tokens;
`pop_front` always has its member `type`: the empty pack on the empty pack, and
what `tail` gives on a non-empty pack. -/
theorem head_tail_pop_front {α : Type} (T : α) (Ts : List α) :
    head (empty_pack : List α) = none ∧ tail (empty_pack : List α) = none ∧
    head (T :: Ts) = some T ∧ tail (T :: Ts) = some Ts ∧
    pop_front (empty_pack : List α) = empty_pack ∧
    some (pop_front (T :: Ts)) = tail (T :: Ts) :=
  ⟨rfl, rfl, rfl, rfl, rfl, rfl⟩

/-! ## algorithms with nothing to remove, generate -/

/-- C28: an algorithm that has nothing to remove gives its input back: `remove` and
`remove_all` when `T` is not in `S`, `remove_if` and `remove_all_if` when no token of
`S` satisfies `P`, and `unique` when no token is twice in `S`. -/
theorem nothing_to_remove {α : Type} [DecidableEq α] (T : α) (P : α → Bool)
    (S : List α) :
    (T ∉ S → remove T S = S ∧ remove_all T S = S) ∧
    ((∀ x ∈ S, P x = false) → remove_if P S = S ∧ remove_all_if P S = S) ∧
    (S.Nodup → unique S = S) := by
  refine ⟨fun h => ⟨remove_of_not_mem T S h, remove_all_of_not_mem T S h⟩, ?_,
    unique_of_nodup S⟩
  intro h
  constructor
  · cases S with
    | nil => rfl
    | cons U Us => simp [remove_if, h U (List.mem_cons_self _ _)]
  · rw [remove_all_if_eq_filter, List.filter_eq_self]
    intro a ha
    simp [h a ha]

theorem nothing_to_remove_witness :
    (remove 4 [1, 3, 5] = [1, 3, 5] ∧ remove_all 4 [1, 3, 5] = [1, 3, 5]) ∧
    (remove_if isEven [1, 3, 5] = [1, 3, 5] ∧ remove_all_if isEven [1, 3, 5] = [1, 3, 5]) ∧
    unique [1, 3, 5] = [1, 3, 5] :=
  ⟨(nothing_to_remove 4 isEven [1, 3, 5]).1 (by decide),
   (nothing_to_remove 4 isEven [1, 3, 5]).2.1 (by decide),
   (nothing_to_remove 4 isEven [1, 3, 5]).2.2 (by decide)⟩

/-- C29: `generate<n, T>` is the pack of exactly `n` tokens, each of them `T`;
`generate<0, T>` is the empty pack. -/
theorem generate_replicates {α : Type} (n : Nat) (T : α) :
    generate n T = List.replicate n T ∧
    size (generate n T) = n ∧
    (∀ x ∈ generate n T, x = T) ∧
    generate 0 T = empty_pack := by
  have h : generate n T = List.replicate n T := by
    induction n with
    | zero => rfl
    | succ k ih => simp [generate, ih, List.replicate_succ]
  refine ⟨h, ?_, ?_, rfl⟩
  · simp [h, size]
  · intro x hx
    rw [h] at hx
    exact List.eq_of_mem_replicate hx

/-! ## conjunction, disjunction, negation -/

theorem conjunction_resolves {β : Type} (value : β → Bool) :
    ∀ Bs : List β, conjunction value Bs =
      match Bs.find? (fun B => !value B) with
      | some B => .operand B
      | none =>
        match Bs.getLast? with
        | some B => .operand B
        | none => .true_type
  | [] => rfl
  | [B] => by
    cases h : value B <;> simp [conjunction, List.find?, h]
  | B1 :: B2 :: Bs => by
    have ih := conjunction_resolves value (B2 :: Bs)
    cases h : value B1
    · simp [conjunction, List.find?, h]
    · have e : (B1 :: B2 :: Bs).find? (fun B => !value B) =
          (B2 :: Bs).find? (fun B => !value B) := List.find?_cons_of_neg _ (by simp [h])
      have e2 : (B1 :: B2 :: Bs).getLast? = (B2 :: Bs).getLast? := List.getLast?_cons_cons
      rw [e, e2, conjunction, if_pos h]
      exact ih

theorem disjunction_resolves {β : Type} (value : β → Bool) :
    ∀ Bs : List β, disjunction value Bs =
      match Bs.find? value with
      | some B => .operand B
      | none =>
        match Bs.getLast? with
        | some B => .operand B
        | none => .false_type
  | [] => rfl
  | [B] => by
    cases h : value B <;> simp [disjunction, List.find?, h]
  | B1 :: B2 :: Bs => by
    have ih := disjunction_resolves value (B2 :: Bs)
    cases h : value B1
    · have e : (B1 :: B2 :: Bs).find? value = (B2 :: Bs).find? value :=
        List.find?_cons_of_neg _ (by simp [h])
      have e2 : (B1 :: B2 :: Bs).getLast? = (B2 :: Bs).getLast? := List.getLast?_cons_cons
      rw [e, e2, disjunction, if_neg (by simp [h])]
      exact ih
    · simp [disjunction, List.find?, h]

theorem conjunction_value {β : Type} (value : β → Bool) :
    ∀ Bs : List β, (conjunction value Bs).value value = Bs.all value
  | [] => rfl
  | [B] => by simp [conjunction, Base.value]
  | B1 :: B2 :: Bs => by
    have ih := conjunction_value value (B2 :: Bs)
    cases h : value B1
    · simp [conjunction, Base.value, h]
    · rw [conjunction, if_pos h, ih]
      simp [h]

theorem disjunction_value {β : Type} (value : β → Bool) :
    ∀ Bs : List β, (disjunction value Bs).value value = Bs.any value
  | [] => rfl
  | [B] => by simp [disjunction, Base.value]
  | B1 :: B2 :: Bs => by
    have ih := disjunction_value value (B2 :: Bs)
    cases h : value B1
    · rw [disjunction, if_neg (by simp [h]), ih]
      simp [h]
    · simp [disjunction, Base.value, h]

/-- C30: `conjunction<B...>` derives from the first operand whose `value` is
`false`, from the last operand when there is none, and from `std::true_type` without
operands, so its `value` is the AND of the operands; `disjunction<B...>` derives from
the first operand whose `value` is `true`, from the last operand when there is none,
and from `std::false_type` without operands, so its `value` is the OR of the
operands; `negation<B>` has the complement of the `value` of `B`. -/
theorem logical_metafunctions {β : Type} (value : β → Bool) (Bs : List β) (B0 : β) :
    (conjunction value Bs =
      match Bs.find? (fun B => !value B) with
      | some B => .operand B
      | none =>
        match Bs.getLast? with
        | some B => .operand B
        | none => .true_type) ∧
    (conjunction value Bs).value value = Bs.all value ∧
    (conjunction value ([] : List β)).value value = true ∧
    (disjunction value Bs =
      match Bs.find? value with
      | some B => .operand B
      | none =>
        match Bs.getLast? with
        | some B => .operand B
        | none => .false_type) ∧
    (disjunction value Bs).value value = Bs.any value ∧
    (disjunction value ([] : List β)).value value = false ∧
    negation value B0 = !value B0 :=
  ⟨conjunction_resolves value Bs, conjunction_value value Bs, rfl,
   disjunction_resolves value Bs, disjunction_value value Bs, rfl, rfl⟩

/-! ## base_is_less, derived_is_less, part_caller -/

theorem base_is_less_eq {α : Type} [DecidableEq α] (is_base_of : α → α → Bool) (A B : α) :
    base_is_less is_base_of A B = (is_base_of A B && !decide (A = B)) := by
  unfold base_is_less
  cases h : is_base_of A B <;> simp [conjunction, Base.value, negation, h]

theorem derived_is_less_eq {α : Type} [DecidableEq α] (is_base_of : α → α → Bool)
    (A B : α) :
    derived_is_less is_base_of A B = (is_base_of B A && !decide (A = B)) := by
  unfold derived_is_less
  cases h : is_base_of B A <;> simp [conjunction, Base.value, negation, h]

/-- C31: `base_is_less<A, B>` holds exactly when `A` is a base of `B` and `A` is not
`B`; `derived_is_less<A, B>` holds exactly when `B` is a base of `A` and `A` is not
`B`, so it is `base_is_less<B, A>`; both are `false` for `A = B`, and for two tokens
neither of which is a base of the other. -/
theorem inheritance_comparators {α : Type} [DecidableEq α] (is_base_of : α → α → Bool)
    (A B : α) :
    (base_is_less is_base_of A B = true ↔ (is_base_of A B = true ∧ A ≠ B)) ∧
    (derived_is_less is_base_of A B = true ↔ (is_base_of B A = true ∧ A ≠ B)) ∧
    derived_is_less is_base_of A B = base_is_less is_base_of B A ∧
    base_is_less is_base_of A A = false ∧
    derived_is_less is_base_of A A = false ∧
    (is_base_of A B = false → is_base_of B A = false →
      base_is_less is_base_of A B = false ∧ derived_is_less is_base_of A B = false) := by
  refine ⟨?_, ?_, ?_, ?_, ?_, ?_⟩
  · rw [base_is_less_eq]
    simp
  · rw [derived_is_less_eq]
    simp
  · rw [base_is_less_eq, derived_is_less_eq]
    by_cases h : A = B
    · subst h
      simp
    · have h2 : ¬ B = A := fun e => h e.symm
      simp [h, h2]
  · rw [base_is_less_eq]
    simp
  · rw [derived_is_less_eq]
    simp
  · intro h1 h2
    rw [base_is_less_eq, derived_is_less_eq, h1, h2]
    simp

theorem inheritance_comparators_witness :
    base_is_less (fun a b : Nat => decide (a ∣ b)) 2 3 = false ∧
    derived_is_less (fun a b : Nat => decide (a ∣ b)) 2 3 = false ∧
    base_is_less (fun a b : Nat => decide (a ∣ b)) 2 4 = true ∧
    derived_is_less (fun a b : Nat => decide (a ∣ b)) 4 2 = true :=
  ⟨((inheritance_comparators (fun a b : Nat => decide (a ∣ b)) 2 3).2.2.2.2.2
      (by decide) (by decide)).1,
   ((inheritance_comparators (fun a b : Nat => decide (a ∣ b)) 2 3).2.2.2.2.2
      (by decide) (by decide)).2,
   (inheritance_comparators (fun a b : Nat => decide (a ∣ b)) 2 4).1.2 (by decide),
   (inheritance_comparators (fun a b : Nat => decide (a ∣ b)) 4 2).2.1.2 (by decide)⟩

/-- C32 (as stated, refuted): a comparison class that provides the member constant
`value` and no member typedef `type` is a comparator, and partially applied to `3`
it gives no predicate for `5` although the comparison holds of `(3, 5)`:
`part_caller` names the member `type` of `F<Ts..., Us...>`. -/
theorem part_caller_needs_member_type :
    part_caller (binary_template (fun a b : Nat => MetaClass.mk (natLess a b) none))
      [3] [5] = none ∧
    (MetaClass.mk (natLess 3 5) none).value = true := by
  decide

/-- C32 (amended): for every binary comparator `C` whose instances have the member
`type` of a class derived from `std::integral_constant` (its `value` is the `value`
of `type`) and every token `A`, the predicate `part_caller<C, A>::type` holds of a
token `X` exactly when `C<A, X>::value`: the bound token is the first operand, the
argument of the predicate the second; `sizeof_less` is such a comparator. -/
theorem part_caller_binds_first {α : Type} (C : α → α → MetaClass) (A X : α)
    (hC : (C A X).type_value = some (C A X).value) (size_of : α → Nat) :
    part_caller (binary_template C) [A] [X] = some (C A X).value ∧
    part_caller (binary_template (sizeof_less size_of)) [A] [X] =
      some (decide (size_of A < size_of X)) := by
  constructor
  · simp [part_caller, binary_template, hC]
  · rfl

theorem part_caller_binds_first_witness :
    part_caller (binary_template (sizeof_more (fun n : Nat => n))) [3] [5] = some false ∧
    part_caller (binary_template (sizeof_more (fun n : Nat => n))) [5] [3] = some true :=
  ⟨(part_caller_binds_first (sizeof_more (fun n : Nat => n)) 3 5 rfl (fun n => n)).1,
   (part_caller_binds_first (sizeof_more (fun n : Nat => n)) 5 3 rfl (fun n => n)).1⟩

/-! ## unique and consecutive groups -/

theorem unique_filter_comm {α : Type} [DecidableEq α] (q : α → Bool) :
    ∀ (n : Nat) (l : List α), l.length ≤ n →
      unique (l.filter q) = (unique l).filter q := by
  intro n
  induction n with
  | zero =>
    intro l hl
    have : l = [] := List.length_eq_zero.mp (Nat.le_zero.mp hl)
    subst this
    simp [unique]
  | succ n ih =>
    intro l hl
    match l, hl with
    | [], _ => simp [unique]
    | a :: l, hl =>
      have hlen : (remove_all a l).length ≤ n :=
        le_trans (remove_all_length_le a l) (by simpa using hl)
      have hcomm : remove_all a (l.filter q) = (remove_all a l).filter q := by
        simp only [remove_all_eq_filter, List.filter_filter]
        apply List.filter_congr
        intro x _
        exact Bool.and_comm _ _
      by_cases hq : q a = true
      · rw [List.filter_cons_of_pos hq, unique_cons, unique_cons,
          List.filter_cons_of_pos hq, hcomm, ih _ hlen]
      · rw [List.filter_cons_of_neg hq, unique_cons, List.filter_cons_of_neg hq,
          ← ih _ hlen]
        congr 1
        simp only [remove_all_eq_filter, List.filter_filter]
        apply List.filter_congr
        intro x _
        by_cases hx : a = x
        · subst hx
          simp [hq]
        · simp [hx]

theorem collapse_from_eq {α : Type} [DecidableEq α] (a : α) :
    ∀ l : List α, collapse_from a l = collapse_runs (l.dropWhile (fun x => decide (x = a))) := by
  intro l
  induction l with
  | nil => rfl
  | cons T Ts ih =>
    by_cases h : T = a
    · rw [collapse_from, if_pos h, ih, List.dropWhile_cons_of_pos (by simp [h])]
    · rw [collapse_from, if_neg h, List.dropWhile_cons_of_neg (by simp [h])]
      rfl

theorem remove_all_dropWhile {α : Type} [DecidableEq α] (a : α) :
    ∀ l : List α, remove_all a (l.dropWhile (fun x => decide (x = a))) = remove_all a l := by
  intro l
  induction l with
  | nil => rfl
  | cons T Ts ih =>
    by_cases h : T = a
    · rw [List.dropWhile_cons_of_pos (by simp [h]), ih]
      subst h
      simp [remove_all]
    · rw [List.dropWhile_cons_of_neg (by simp [h])]

theorem unique_collapse_runs {α : Type} [DecidableEq α] :
    ∀ (n : Nat) (l : List α), l.length ≤ n → unique (collapse_runs l) = unique l := by
  intro n
  induction n with
  | zero =>
    intro l hl
    have : l = [] := List.length_eq_zero.mp (Nat.le_zero.mp hl)
    subst this
    rfl
  | succ n ih =>
    intro l hl
    match l, hl with
    | [], _ => rfl
    | a :: l, hl =>
      have hd : (l.dropWhile (fun x => decide (x = a))).length ≤ n :=
        le_trans (List.dropWhile_sublist _).length_le (by simpa using hl)
      rw [collapse_runs, unique_cons, unique_cons, collapse_from_eq,
        remove_all_eq_filter, unique_filter_comm _ _ _ le_rfl, ih _ hd,
        ← unique_filter_comm _ _ _ le_rfl, ← remove_all_eq_filter, remove_all_dropWhile]

/-- C33 (as stated, refuted): `unique` of the pack `{0, 1, 0}` is `{0, 1}`, while the
pack with every run of adjacent identical tokens collapsed is `{0, 1, 0}`: the
second `0` is not adjacent to the first and is removed all the same. -/
theorem unique_removes_separated_duplicates :
    unique [0, 1, 0] = [0, 1] ∧ collapse_runs [0, 1, 0] = [0, 1, 0] := by
  constructor
  · simp [unique, remove_all]
  · decide

theorem unique_sublist {α : Type} [DecidableEq α] :
    ∀ (n : Nat) (l : List α), l.length ≤ n → List.Sublist (unique l) l := by
  intro n
  induction n with
  | zero =>
    intro l hl
    have : l = [] := List.length_eq_zero.mp (Nat.le_zero.mp hl)
    subst this
    simp [unique]
  | succ n ih =>
    intro l hl
    match l, hl with
    | [], _ => simp [unique]
    | T :: Ts, hl =>
      have hlen : (remove_all T Ts).length ≤ n :=
        le_trans (remove_all_length_le T Ts) (by simpa using hl)
      rw [unique_cons]
      refine List.Sublist.cons₂ T ((ih _ hlen).trans ?_)
      rw [remove_all_eq_filter]
      exact List.filter_sublist Ts

/-- C33 (amended): `unique<S>` eliminates all except the first token from every group
of identical tokens, adjacent or not, and nothing else: it holds every token of `S`
exactly once and no other token, in the order of the first occurrences in `S`; it is
what is left of the pack with every maximal run of adjacent identical tokens
collapsed to one token when `unique` is applied to that pack, and it is that
collapsed pack itself exactly when no token is in two different runs. -/
theorem unique_collapses_all_groups {α : Type} [DecidableEq α] (S : List α) :
    (∀ x, (unique S).count x = if x ∈ S then 1 else 0) ∧
    (unique S).Pairwise (fun x y => S.indexOf x < S.indexOf y) ∧
    List.Sublist (unique S) (collapse_runs S) ∧
    unique S = unique (collapse_runs S) ∧
    (unique S = collapse_runs S ↔ (collapse_runs S).Nodup) := by
  have h := unique_collapse_runs _ S le_rfl
  refine ⟨?_, unique_ordered _ S le_rfl, ?_, h.symm, ?_, ?_⟩
  · intro x
    by_cases hx : x ∈ S
    · rw [if_pos hx]
      exact List.count_eq_one_of_mem (nodup_unique _ S le_rfl)
        ((mem_unique _ S le_rfl x).mpr hx)
    · rw [if_neg hx]
      exact List.count_eq_zero_of_not_mem (fun hm => hx ((mem_unique _ S le_rfl x).mp hm))
  · rw [← h]
    exact unique_sublist _ (collapse_runs S) le_rfl
  · intro e
    rw [← e]
    exact nodup_unique _ S le_rfl
  · intro hn
    rw [← h]
    exact unique_of_nodup _ hn

theorem unique_collapses_all_groups_witness :
    unique [0, 1, 0, 2, 1, 1] = [0, 1, 2] ∧
    collapse_runs [0, 1, 0, 2, 1, 1] = [0, 1, 0, 2, 1] ∧
    unique [0, 1, 0, 2, 1, 1] ≠ collapse_runs [0, 1, 0, 2, 1, 1] := by
  obtain ⟨hcount, hord, _, _, hiff⟩ := unique_collapses_all_groups [0, 1, 0, 2, 1, 1]
  have hperm : (unique [0, 1, 0, 2, 1, 1]).Perm [0, 1, 2] := by
    rw [List.perm_iff_count]
    intro x
    rw [hcount x]
    match x with
    | 0 => decide
    | 1 => decide
    | 2 => decide
    | n + 3 => simp
  haveI : IsAntisymm Nat
      (fun x y => [0, 1, 0, 2, 1, 1].indexOf x < [0, 1, 0, 2, 1, 1].indexOf y) :=
    ⟨fun a b hab hba => absurd hab (Nat.lt_asymm hba)⟩
  have heq : unique [0, 1, 0, 2, 1, 1] = [0, 1, 2] :=
    List.eq_of_perm_of_sorted hperm hord (by decide)
  refine ⟨heq, by decide, ?_⟩
  intro e
  exact absurd (hiff.mp e) (by decide)

/-! ## sort: recursion, stability, termination -/

theorem swo_asymm {α : Type} (Less : α → α → Bool) (h : StrictWeakOrder Less) (a b : α)
    (hab : Less a b = true) : Less b a = false := by
  cases hba : Less b a
  · rfl
  · have := h.trans a b a hab hba
    rw [h.irrefl] at this
    exact absurd this (by simp)

theorem equivalent_iff {α : Type} (Less : α → α → Bool) (x y : α) :
    equivalent Less x y = true ↔ (Less x y = false ∧ Less y x = false) := by
  simp [equivalent]

theorem filter_filter_of_imp {α : Type} (q r : α → Bool) (l : List α)
    (h : ∀ a ∈ l, q a = true → r a = true) : (l.filter r).filter q = l.filter q := by
  rw [List.filter_filter]
  apply List.filter_congr
  intro a ha
  cases hq : q a
  · rfl
  · simp [h a ha hq]

theorem filter_filter_of_not {α : Type} (q r : α → Bool) (l : List α)
    (h : ∀ a ∈ l, q a = true → r a = false) : (l.filter r).filter q = [] := by
  rw [List.filter_filter, List.filter_eq_nil_iff]
  intro a ha
  cases hq : q a
  · simp
  · simp [h a ha hq]

theorem sort_some_stable {α : Type} [DecidableEq α] (Less : α → α → Bool)
    (h : StrictWeakOrder Less) :
    ∀ (fuel : Nat) (S r : List α), sort Less fuel S = some r →
      ∀ x, r.filter (fun e => equivalent Less x e) = S.filter (fun e => equivalent Less x e) := by
  intro fuel
  induction fuel with
  | zero => intro S r hs; simp [sort] at hs
  | succ f ih =>
    intro S r hs x
    match S, hs with
    | [], hs => simp [sort] at hs; subst hs; rfl
    | [T], hs => simp [sort] at hs; subst hs; rfl
    | T :: U :: Us, hs =>
      rw [sort_step, filter_pivot_irrefl Less T _ (h.irrefl T)] at hs
      obtain ⟨lt, hlt, hs⟩ := Option.bind_eq_some.mp hs
      obtain ⟨gte, hgte, hs⟩ := Option.bind_eq_some.mp hs
      simp only [Option.some.injEq] at hs
      subst hs
      have e1 := ih _ _ hlt x
      have e2 := ih _ _ hgte x
      rw [List.filter_append, e1]
      by_cases hxT : equivalent Less x T = true
      · have c1 : (T :: gte).filter (fun e => equivalent Less x e) =
            T :: gte.filter (fun e => equivalent Less x e) := by
          simp [List.filter_cons, hxT]
        have c2 : (T :: U :: Us).filter (fun e => equivalent Less x e) =
            T :: (U :: Us).filter (fun e => equivalent Less x e) := by
          rw [List.filter_cons, if_pos hxT]
        obtain ⟨hxT1, hxT2⟩ := (equivalent_iff Less x T).mp hxT
        have hL : ((U :: Us).filter (fun e => Less e T)).filter
            (fun e => equivalent Less x e) = [] := by
          apply filter_filter_of_not
          intro a _ ha
          obtain ⟨ha1, ha2⟩ := (equivalent_iff Less x a).mp ha
          exact (h.incomp_trans a x T ha2 ha1 hxT1 hxT2).1
        have hG : ((U :: Us).filter (fun e => !Less e T)).filter
            (fun e => equivalent Less x e) =
            (U :: Us).filter (fun e => equivalent Less x e) := by
          apply filter_filter_of_imp
          intro a _ ha
          obtain ⟨ha1, ha2⟩ := (equivalent_iff Less x a).mp ha
          simp [(h.incomp_trans a x T ha2 ha1 hxT1 hxT2).1]
        rw [c1, c2, e2, hL, hG]
        rfl
      · have c1 : (T :: gte).filter (fun e => equivalent Less x e) =
            gte.filter (fun e => equivalent Less x e) := by
          simp [List.filter_cons, hxT]
        have c2 : (T :: U :: Us).filter (fun e => equivalent Less x e) =
            (U :: Us).filter (fun e => equivalent Less x e) := by
          rw [List.filter_cons, if_neg hxT]
        rw [c1, c2, e2]
        have hcases : Less x T = true ∨ Less T x = true := by
          cases h1 : Less x T
          · cases h2 : Less T x
            · exact absurd ((equivalent_iff Less x T).mpr ⟨h1, h2⟩) hxT
            · exact Or.inr rfl
          · exact Or.inl rfl
        rcases hcases with hlt2 | hgt2
        · have key : ∀ a, equivalent Less x a = true → Less a T = true := by
            intro a ha
            obtain ⟨ha1, _⟩ := (equivalent_iff Less x a).mp ha
            rcases swo_neg_trans Less h x a T hlt2 with h1 | h1
            · rw [ha1] at h1
              exact absurd h1 (by simp)
            · exact h1
          have hL := filter_filter_of_imp (fun e => equivalent Less x e)
            (fun e => Less e T) (U :: Us) (fun a _ ha => key a ha)
          have hG := filter_filter_of_not (fun e => equivalent Less x e)
            (fun e => !Less e T) (U :: Us) (fun a _ ha => by simp [key a ha])
          rw [hL, hG, List.append_nil]
        · have key : ∀ a, equivalent Less x a = true → Less a T = false := by
            intro a ha
            obtain ⟨_, ha2⟩ := (equivalent_iff Less x a).mp ha
            rcases swo_neg_trans Less h T a x hgt2 with h1 | h1
            · exact swo_asymm Less h T a h1
            · rw [ha2] at h1
              exact absurd h1 (by simp)
          have hL := filter_filter_of_not (fun e => equivalent Less x e)
            (fun e => Less e T) (U :: Us) (fun a _ ha => key a ha)
          have hG := filter_filter_of_imp (fun e => equivalent Less x e)
            (fun e => !Less e T) (U :: Us) (fun a _ ha => by simp [key a ha])
          rw [hL, hG, List.nil_append]

/-- C34: `sort` of the empty pack and of a one-token pack is the pack itself; and
for a strict weak order and a pack `p, rest...` with a non-empty `rest`, `sort` is
`sort` of the tokens of `rest` that are less than `p`, then `p`, then `sort` of the
tokens of `rest` that are not less than `p`. -/
theorem sort_quicksort_recursion {α : Type} [DecidableEq α] (Less : α → α → Bool) :
    (∀ fuel, sort Less (fuel + 1) empty_pack = some empty_pack) ∧
    (∀ fuel (x : α), sort Less (fuel + 1) [x] = some [x]) ∧
    (StrictWeakOrder Less → ∀ (p : α) (rest : List α), rest ≠ [] →
      ∃ rL rG : List α,
        (∀ fuel, size (rest.filter (fun e => Less e p)) < fuel →
          sort Less fuel (rest.filter (fun e => Less e p)) = some rL) ∧
        (∀ fuel, size (rest.filter (fun e => !Less e p)) < fuel →
          sort Less fuel (rest.filter (fun e => !Less e p)) = some rG) ∧
        (∀ fuel, size (p :: rest) < fuel →
          sort Less fuel (p :: rest) = some (rL ++ p :: rG))) := by
  refine ⟨fun fuel => by simp [sort, empty_pack], fun fuel x => by simp [sort], ?_⟩
  intro h p rest hrest
  obtain ⟨rL, hL⟩ := sort_total Less h.irrefl (rest.filter (fun e => Less e p))
  obtain ⟨rG, hG⟩ := sort_total Less h.irrefl (rest.filter (fun e => !Less e p))
  refine ⟨rL, rG, hL, hG, ?_⟩
  intro fuel hfuel
  obtain ⟨U, Us, rfl⟩ := List.exists_cons_of_ne_nil hrest
  match fuel, hfuel with
  | f + 1, hfuel =>
    have hf : (U :: Us).length < f := by
      simp only [size, List.length_cons] at hfuel ⊢
      omega
    rw [sort_step, filter_pivot_irrefl Less p _ (h.irrefl p),
      hL f (lt_of_le_of_lt (List.length_filter_le _ _) hf),
      hG f (lt_of_le_of_lt (List.length_filter_le _ _) hf)]
    rfl

theorem sort_quicksort_recursion_witness :
    sort natLess 5 [2, 0, 3, 1] = some ([0, 1] ++ 2 :: [3]) := by
  obtain ⟨rL, rG, hL, hG, hS⟩ :=
    (sort_quicksort_recursion natLess).2.2 natLess_swo 2 [0, 3, 1] (by decide)
  have e1 : rL = [0, 1] := by
    have := hL 3 (by decide)
    rw [show sort natLess 3 ([0, 3, 1].filter (fun e => natLess e 2)) = some [0, 1] by
      decide] at this
    exact (Option.some.inj this).symm
  have e2 : rG = [3] := by
    have := hG 2 (by decide)
    rw [show sort natLess 2 ([0, 3, 1].filter (fun e => !natLess e 2)) = some [3] by
      decide] at this
    exact (Option.some.inj this).symm
  rw [hS 5 (by decide), e1, e2]

/-- C36: for a strict weak order, `sort` keeps the relative order of equivalent
tokens: for every token `x`, the tokens of `sort<S, Less>::type` equivalent to `x`
are, in order, the tokens of `S` equivalent to `x`. -/
theorem sort_is_stable {α : Type} [DecidableEq α] (Less : α → α → Bool)
    (hLess : StrictWeakOrder Less) (S : List α) :
    ∃ r, (∀ fuel, S.length < fuel → sort Less fuel S = some r) ∧
      ∀ x, r.filter (fun e => equivalent Less x e) =
        S.filter (fun e => equivalent Less x e) := by
  obtain ⟨r, hr⟩ := sort_total Less hLess.irrefl S
  exact ⟨r, hr, sort_some_stable Less hLess _ S r (hr _ (Nat.lt_succ_self _))⟩

theorem sort_is_stable_witness :
    sort byTens 5 [25, 11, 20, 10] = some [11, 10, 25, 20] ∧
    [11, 10, 25, 20].filter (fun e => equivalent byTens 10 e) =
      [25, 11, 20, 10].filter (fun e => equivalent byTens 10 e) := by
  obtain ⟨r, hr, hst⟩ := sort_is_stable byTens byTens_swo [25, 11, 20, 10]
  have e : r = [11, 10, 25, 20] := by
    have := hr 5 (by decide)
    rw [show sort byTens 5 [25, 11, 20, 10] = some [11, 10, 25, 20] by decide] at this
    exact (Option.some.inj this).symm
  subst e
  exact ⟨hr 5 (by decide), hst 10⟩

/-- C37: for an irreflexive `Less`, in the inductive case of `sort` on a pack with
first token `p`, the pack of the tokens less than `p`, taken from the whole pack, and
the pack of the tokens not less than `p`, taken from the pack without `p`, are both
shorter than the pack; and `sort` has its member `type` on every pack. -/
theorem sort_partitions_shorter {α : Type} [DecidableEq α] (Less : α → α → Bool)
    (hirr : ∀ a, Less a a = false) :
    (∀ (p : α) (rest : List α),
      size (copy_if (fun e => Less e p) (p :: rest)) < size (p :: rest) ∧
      size (copy_if (fun e => !Less e p) (remove p (p :: rest))) < size (p :: rest)) ∧
    (∀ S : List α, ∃ r, ∀ fuel, size S < fuel → sort Less fuel S = some r) := by
  refine ⟨?_, fun S => sort_total Less hirr S⟩
  intro p rest
  rw [copy_if_eq_filter, copy_if_eq_filter, remove_head, filter_pivot_irrefl Less p _ (hirr p)]
  simp only [size, List.length_cons]
  exact ⟨Nat.lt_succ_of_le (List.length_filter_le _ _),
    Nat.lt_succ_of_le (List.length_filter_le _ _)⟩

theorem sort_partitions_shorter_witness :
    (∀ a, natLess a a = false) ∧
    size (copy_if (fun e => natLess e 2) [2, 0, 3, 1]) < size [2, 0, 3, 1] ∧
    size (copy_if (fun e => !natLess e 2) (remove 2 [2, 0, 3, 1])) < size [2, 0, 3, 1] :=
  ⟨natLess_swo.irrefl, (sort_partitions_shorter natLess natLess_swo.irrefl).1 2 [0, 3, 1]⟩

/-! ## copy: the shortcut, slices and concatenation -/

theorem copy_impl_rebuild_eq {α : Type} (b e : Nat) :
    ∀ (l : List α) (cur : Nat), copy_impl b e cur l = copy_impl_rebuild b e cur l := by
  intro l
  induction l with
  | nil => intro cur; rfl
  | cons T Ts ih =>
    intro cur
    by_cases hbe : b ≤ e
    · have hok : (!indexes_ok b e) = false := by simp [indexes_ok, hbe]
      by_cases h1 : cur < b
      · simp only [copy_impl, copy_impl_rebuild, hok, if_pos h1, ih]
      · by_cases h2 : cur < e
        · simp only [copy_impl, copy_impl_rebuild, hok, if_neg h1, if_pos h2, ← ih]
          by_cases hst : e - cur = size (T :: Ts)
          · have hrc : copy_impl b e (cur + 1) Ts = some Ts := by
              have hlen : e - (cur + 1) = Ts.length := by
                simp only [size, List.length_cons] at hst
                omega
              have e1 : b - (cur + 1) = 0 := by omega
              have e2 : max b (cur + 1) = cur + 1 := by omega
              rw [copy_impl_eq b e hbe Ts (cur + 1) (by omega), if_pos (by omega), e1, e2,
                hlen, List.drop_zero, List.take_length]
            simp [hrc, hst]
          · simp [hst]
        · simp only [copy_impl, copy_impl_rebuild, hok, if_neg h1, if_neg h2]
    · have hok : (!indexes_ok b e) = true := by simp [indexes_ok, hbe]
      simp [copy_impl, copy_impl_rebuild, hok]

/-- C35: the shortcut of `copy_impl` (taking the remaining tail when `end - current`
is the number of remaining tokens) is not observable: `copy` gives what the copy
that always rebuilds the slice token by token gives, and for `b <= e <= S::size()`
both have their member `type`. -/
theorem copy_shortcut_unobservable {α : Type} (S : List α) (b e : Nat) :
    copy S b e = copy_rebuild S b e ∧
    (b ≤ e → e ≤ size S → ∃ r, copy S b e = some r ∧ copy_rebuild S b e = some r) := by
  have h : copy S b e = copy_rebuild S b e := copy_impl_rebuild_eq b e S 0
  refine ⟨h, ?_⟩
  intro hbe he
  refine ⟨(S.drop b).take (e - b), ?_, ?_⟩
  · rw [copy_eq, if_pos ⟨hbe, he⟩]
  · rw [← h, copy_eq, if_pos ⟨hbe, he⟩]

theorem copy_shortcut_unobservable_witness :
    copy [0, 1, 2, 3] 1 4 = some [1, 2, 3] ∧ copy_rebuild [0, 1, 2, 3] 1 4 = some [1, 2, 3] := by
  obtain ⟨r, h1, h2⟩ :=
    (copy_shortcut_unobservable [0, 1, 2, 3] 1 4).2 (by decide) (by decide)
  have e : r = [1, 2, 3] := by
    rw [show copy_rebuild [0, 1, 2, 3] 1 4 = some [1, 2, 3] by decide] at h2
    exact (Option.some.inj h2).symm
  subst e
  exact ⟨h1, h2⟩

/-- C40: for `k <= S::size()`, concatenating `copy<S, 0, k>` and
`copy<S, k, S::size()>` gives `S` back; and for `b <= e <= S::size()` the pack
`copy<S, b, e>` has `e - b` tokens. -/
theorem copy_concatenate_roundtrip {α : Type} (S : List α) :
    (∀ k, k ≤ size S →
      ∃ l r, copy S 0 k = some l ∧ copy S k (size S) = some r ∧
        concatenate [.pack l, .pack r] = some S) ∧
    (∀ b e, b ≤ e → e ≤ size S → ∃ r, copy S b e = some r ∧ size r = e - b) := by
  constructor
  · intro k hk
    refine ⟨S.take k, S.drop k, ?_, copy_to_end S k hk, ?_⟩
    · rw [copy_eq, if_pos ⟨Nat.zero_le _, hk⟩]
      simp
    · simp [concatenate, concatenate2]
  · intro b e hbe he
    refine ⟨(S.drop b).take (e - b), ?_, ?_⟩
    · rw [copy_eq, if_pos ⟨hbe, he⟩]
    · simp only [size, List.length_take, List.length_drop] at he ⊢
      omega

theorem copy_concatenate_roundtrip_witness :
    (∃ l r, copy [0, 1, 2, 3] 0 1 = some l ∧ copy [0, 1, 2, 3] 1 (size [0, 1, 2, 3]) = some r ∧
      concatenate [.pack l, .pack r] = some [0, 1, 2, 3]) ∧
    (∃ r, copy [0, 1, 2, 3] 1 3 = some r ∧ size r = 3 - 1) :=
  ⟨(copy_concatenate_roundtrip [0, 1, 2, 3]).1 1 (by decide),
   (copy_concatenate_roundtrip [0, 1, 2, 3]).2 1 3 (by decide) (by decide)⟩

/-! ## max and min are extreme tokens of the pack -/

/-- C39: for a strict weak order and a non-empty pack none of whose tokens is
`empty_type`, `max_t` is a token of the pack that no token of the pack exceeds, and
`min_t` is a token of the pack that no token of the pack is less than. -/
theorem max_min_are_extreme {α : Type} [DecidableEq α] (empty_type : α)
    (Less : α → α → Bool) (hLess : StrictWeakOrder Less) (S : List α) (hS : S ≠ [])
    (hno : ∀ x ∈ S, x ≠ empty_type) :
    (max_t empty_type S Less ∈ S ∧ ∀ x ∈ S, Less (max_t empty_type S Less) x = false) ∧
    (min_t empty_type S Less ∈ S ∧ ∀ x ∈ S, Less x (min_t empty_type S Less) = false) := by
  obtain ⟨T, Ts, rfl⟩ := List.exists_cons_of_ne_nil hS
  constructor
  · rw [max_t_cons_eq_foldl empty_type Less T Ts hno]
    obtain ⟨hmax, i, hi, _⟩ := foldl_max_spec Less hLess Ts T
    exact ⟨List.getElem?_mem hi, hmax⟩
  · rw [min_t_cons_eq_foldl empty_type Less T Ts hno]
    obtain ⟨hmin, i, hi, _⟩ := foldl_min_spec Less hLess Ts T
    exact ⟨List.getElem?_mem hi, hmin⟩

theorem max_min_are_extreme_witness :
    (max_t 0 [25, 10, 31, 11] byTens ∈ [25, 10, 31, 11] ∧
      ∀ x ∈ [25, 10, 31, 11], byTens (max_t 0 [25, 10, 31, 11] byTens) x = false) ∧
    (min_t 0 [25, 10, 31, 11] byTens ∈ [25, 10, 31, 11] ∧
      ∀ x ∈ [25, 10, 31, 11], byTens x (min_t 0 [25, 10, 31, 11] byTens) = false) :=
  max_min_are_extreme 0 byTens byTens_swo [25, 10, 31, 11] (by decide) (by decide)

/-! ## lexicographical_compare is a strict order -/

theorem lex_nil_right {α : Type} (Less : α → α → Bool) (A : List α) :
    lexicographical_compare_impl Less A [] = some false := by
  cases A <;> rfl

theorem lex_cons_equiv {α : Type} (Less : α → α → Bool) (T U : α) (Ts Us : List α)
    (h1 : Less T U = false) (h2 : Less U T = false) :
    lexicographical_compare_impl Less (T :: Ts) (U :: Us) =
      lexicographical_compare_impl Less Ts Us := by
  simp [lexicographical_compare_impl, h1, h2]

theorem lex_cons_lt {α : Type} (Less : α → α → Bool) (T U : α) (Ts Us : List α)
    (h1 : Less T U = true) (h2 : Less U T = false) :
    lexicographical_compare_impl Less (T :: Ts) (U :: Us) = some true := by
  simp [lexicographical_compare_impl, h1, h2]

theorem lex_cons_gt {α : Type} (Less : α → α → Bool) (T U : α) (Ts Us : List α)
    (h1 : Less T U = false) (h2 : Less U T = true) :
    lexicographical_compare_impl Less (T :: Ts) (U :: Us) = some false := by
  simp [lexicographical_compare_impl, h1, h2]

theorem lex_irrefl {α : Type} (Less : α → α → Bool) (h : StrictWeakOrder Less) :
    ∀ A : List α, lexicographical_compare_impl Less A A = some false := by
  intro A
  induction A with
  | nil => rfl
  | cons T Ts ih => rw [lex_cons_equiv Less T T Ts Ts (h.irrefl T) (h.irrefl T), ih]

theorem lex_asymm {α : Type} (Less : α → α → Bool) (h : StrictWeakOrder Less) :
    ∀ A B : List α, lexicographical_compare_impl Less A B = some true →
      lexicographical_compare_impl Less B A = some false := by
  intro A
  induction A with
  | nil => intro B _; exact lex_nil_right Less B
  | cons T Ts ih =>
    intro B hAB
    cases B with
    | nil => simp [lexicographical_compare_impl] at hAB
    | cons U Us =>
      cases hTU : Less T U
      · cases hUT : Less U T
        · rw [lex_cons_equiv Less T U Ts Us hTU hUT] at hAB
          rw [lex_cons_equiv Less U T Us Ts hUT hTU]
          exact ih Us hAB
        · rw [lex_cons_gt Less T U Ts Us hTU hUT] at hAB
          simp at hAB
      · have hUT := swo_asymm Less h T U hTU
        exact lex_cons_gt Less U T Us Ts hUT hTU

theorem lex_trans {α : Type} (Less : α → α → Bool) (h : StrictWeakOrder Less) :
    ∀ A B C : List α, lexicographical_compare_impl Less A B = some true →
      lexicographical_compare_impl Less B C = some true →
      lexicographical_compare_impl Less A C = some true := by
  intro A
  induction A with
  | nil =>
    intro B C _ hBC
    cases C with
    | nil => rw [lex_nil_right] at hBC; simp at hBC
    | cons V Vs => rfl
  | cons T Ts ih =>
    intro B C hAB hBC
    cases B with
    | nil => simp [lexicographical_compare_impl] at hAB
    | cons U Us =>
      cases C with
      | nil => simp [lexicographical_compare_impl] at hBC
      | cons V Vs =>
        cases hUV : Less U V
        · cases hVU : Less V U
          · rw [lex_cons_equiv Less U V Us Vs hUV hVU] at hBC
            cases hTU : Less T U
            · cases hUT : Less U T
              · rw [lex_cons_equiv Less T U Ts Us hTU hUT] at hAB
                obtain ⟨hTV, hVT⟩ := h.incomp_trans T U V hTU hUT hUV hVU
                rw [lex_cons_equiv Less T V Ts Vs hTV hVT]
                exact ih Us Vs hAB hBC
              · rw [lex_cons_gt Less T U Ts Us hTU hUT] at hAB
                simp at hAB
            · have hTV : Less T V = true := by
                rcases swo_neg_trans Less h T V U hTU with h1 | h1
                · exact h1
                · rw [hVU] at h1
                  exact absurd h1 (by simp)
              exact lex_cons_lt Less T V Ts Vs hTV (swo_asymm Less h T V hTV)
          · rw [lex_cons_gt Less U V Us Vs hUV hVU] at hBC
            simp at hBC
        · cases hTU : Less T U
          · cases hUT : Less U T
            · have hTV : Less T V = true := by
                rcases swo_neg_trans Less h U T V hUV with h1 | h1
                · rw [hUT] at h1
                  exact absurd h1 (by simp)
                · exact h1
              exact lex_cons_lt Less T V Ts Vs hTV (swo_asymm Less h T V hTV)
            · rw [lex_cons_gt Less T U Ts Us hTU hUT] at hAB
              simp at hAB
          · have hTV := h.trans T U V hTU hUV
            exact lex_cons_lt Less T V Ts Vs hTV (swo_asymm Less h T V hTV)

/-- C38: for a strict weak order on the tokens, `lexicographical_compare` always has
a `value` and is a strict order on packs: irreflexive, asymmetric and transitive. -/
theorem lexicographical_compare_strict_order {α : Type} (Less : α → α → Bool)
    (hLess : StrictWeakOrder Less) :
    (∀ A B : List α, ∃ v, lexicographical_compare A B Less = some v) ∧
    (∀ A : List α, lexicographical_compare A A Less = some false) ∧
    (∀ A B : List α, lexicographical_compare A B Less = some true →
      lexicographical_compare B A Less = some false) ∧
    (∀ A B C : List α, lexicographical_compare A B Less = some true →
      lexicographical_compare B C Less = some true →
      lexicographical_compare A C Less = some true) := by
  refine ⟨?_, lex_irrefl Less hLess, lex_asymm Less hLess, lex_trans Less hLess⟩
  intro A B
  obtain ⟨v, hv, _⟩ := lexicographical_compare_impl_spec Less (swo_asymm Less hLess) A B
  exact ⟨v, hv⟩

theorem lexicographical_compare_strict_order_witness :
    lexicographical_compare [10, 25] [11, 30] byTens = some true ∧
    lexicographical_compare [11, 30] [10, 25] byTens = some false ∧
    lexicographical_compare [10, 25] [19, 31, 5] byTens = some true := by
  obtain ⟨_, _, hasym, htrans⟩ := lexicographical_compare_strict_order byTens byTens_swo
  have h1 : lexicographical_compare [10, 25] [11, 30] byTens = some true := by decide
  have h2 : lexicographical_compare [11, 30] [19, 31, 5] byTens = some true := by decide
  exact ⟨h1, hasym _ _ h1, htrans _ _ _ h1 h2⟩

end tp
